import Mathlib

/-!
A verification development for the stylotron text-markup engine
(`lib/stylotron.js`).  The JavaScript source is shallowly embedded:

* text is modelled as `List Char` (`Str`);
* a JS number used as a text offset is a `Nat`;
* segment maps are `List Seg`, mirroring the ordered arrays of
  `SOT.text.map`;
* the mutable accumulator object `p = {newmap, i, setindex}` of
  `_insertrange`/`addmatches` is modelled by the structure `P`, where the
  read cursor `p.i` into the old map is represented by the unconsumed
  suffix `p.rest` of that map;
* the regex engine is an external collaborator: `addmatches` takes the
  ordered match list that `text.matchAll(regex)` would produce;
* a place where the JS code would throw (property access on `undefined`)
  is modelled by an `Option` result.
-/

namespace SOT

abbrev Str : Type := List Char

/-- `{start, end}` half-open range of text offsets. -/
structure Range where
  start : Nat
  «end» : Nat
deriving DecidableEq, Repr

/-- The range stored inside an origin: `_insertrange` extends it with the
`setindex` sequence counter (`{'start':start,'end':end,'setindex':p.setindex}`). -/
structure ORange where
  start : Nat
  «end» : Nat
  setindex : Nat
deriving DecidableEq, Repr

/-- One element of a segment's `origs` array: `{setname:.., range:..}`. -/
structure Orig where
  setname : Str
  range : ORange
deriving DecidableEq, Repr

/-- One element of a map: `{range:{start:., end:.}, origs:[...]}`. -/
structure Seg where
  range : Range
  origs : List Orig
deriving DecidableEq, Repr

/-- `SOT.text.map.range.neworigs` (string setname case). -/
def neworigs (setname : Str) (range : ORange) : List Orig :=
  [{ setname := setname, range := range }]

/-- `SOT.text.map.range.mk`. -/
def mkseg (start «end» : Nat) (origs : List Orig) : Seg :=
  { range := { start := start, «end» := «end» }, origs := origs }

/-- `SOT.text.map._seg2`: split the incoming fragment `m` against the
existing segment `i`.  Returns the list of segments pushed onto
`p.newmap` (the left remainder, when non-empty, and the middle
intersection) together with the carried-forward right fragment. -/
def _seg2 (m i : Seg) : List Seg × Seg :=
  let r1 : Range := { start := min m.range.start i.range.start,
                      «end» := max m.range.start i.range.start }
  let left : List Seg :=
    if r1.start < r1.«end» then
      [mkseg r1.start r1.«end» (if r1.start < i.range.start then m.origs else i.origs)]
    else []
  let r2 : Range := { start := max m.range.start i.range.start,
                      «end» := min m.range.«end» i.range.«end» }
  let mid : Seg := mkseg r2.start r2.«end» (i.origs ++ m.origs)
  let r3 : Range := { start := min m.range.«end» i.range.«end»,
                      «end» := max m.range.«end» i.range.«end» }
  (left ++ [mid],
   mkseg r3.start r3.«end» (if r3.start < m.range.«end» then m.origs else i.origs))

/-- The `for( ; p.i<map.length && map[p.i].range.start<m.range.end; p.i++ )`
loop of `_segment`, consuming the unread suffix `rest` of the old map.
Returns the grown `newmap`, the final fragment `m` and the unconsumed
suffix. -/
def segmentLoop : List Seg → Seg → List Seg → List Seg × Seg × List Seg
  | [], m, newmap => (newmap, m, [])
  | i :: rest, m, newmap =>
    if i.range.start < m.range.«end» then
      let pr := _seg2 m i
      segmentLoop rest pr.2 (newmap ++ pr.1)
    else (newmap, m, i :: rest)

/-- `SOT.text.map._segment`: merge the range `[start, end)` carrying
`origs` into the map, splitting overlapped segments.  `newmap` plays the
role of `p.newmap`, `rest` the role of `map` from index `p.i` on. -/
def _segment (start «end» : Nat) (origs : List Orig) (rest newmap : List Seg) :
    List Seg × List Seg :=
  let m := mkseg start «end» origs
  let popped : List Seg × Seg :=
    match newmap.getLast? with
    | some l =>
      if m.range.start < l.range.«end» then
        let pr := _seg2 m l
        (newmap.dropLast ++ pr.1, pr.2)
      else (newmap, m)
    | none => (newmap, m)
  let out := segmentLoop rest popped.2 popped.1
  (if out.2.1.range.start < out.2.1.range.«end» then out.1 ++ [out.2.1] else out.1,
   out.2.2)

/-- The state object `p = {newmap:[], i:0, setindex:0}` threaded through
`_insertrange` and `addmatches`; `rest` is the suffix of the old map from
index `p.i` on. -/
structure P where
  newmap : List Seg
  rest : List Seg
  setindex : Nat
deriving DecidableEq, Repr

/-- The `for( ; p.i < map.length && map[p.i].range.end <= start; p.i++ )`
"add all before entries" loop of `_insertrange`. -/
def skipBefore (start : Nat) : List Seg → List Seg → List Seg × List Seg
  | [], newmap => (newmap, [])
  | i :: rest, newmap =>
    if i.range.«end» ≤ start then skipBefore start rest (newmap ++ [i])
    else (newmap, i :: rest)

/-- `SOT.text.map._insertrange` in Segment mode (`segment = true`, the
mode every claim is about). -/
def _insertrange (start «end» : Nat) (set : Str) (p : P) : P :=
  let sk := skipBefore start p.rest p.newmap
  let origs := neworigs set { start := start, «end» := «end», setindex := p.setindex }
  let out := _segment start «end» origs sk.2 sk.1
  { newmap := out.1, rest := out.2, setindex := p.setindex }

/-- `SOT.text.map._addendranges`: flush the unread tail of the old map. -/
def _addendranges (p : P) : List Seg :=
  p.newmap ++ p.rest

/-- The `for( const match of matches )` loop of `addmatches`. -/
def addmatchesLoop (setname : Str) : List Range → P → P
  | [], p => p
  | mt :: ms, p =>
    let p1 := _insertrange mt.start mt.«end» setname p
    addmatchesLoop setname ms { p1 with setindex := p1.setindex + 1 }

/-- `SOT.text.map.addmatches` in Segment mode.  The regex engine is an
external collaborator; `matches` is the ordered match list
`text.matchAll(regex)` would yield, each match contributing the range
`[match.index, match.index + match[0].length)`. -/
def addmatches («matches» : List Range) (setname : Str) (map : List Seg) : List Seg :=
  _addendranges (addmatchesLoop setname «matches» { newmap := [], rest := map, setindex := 0 })

/-- `SOT.text.map.addrange` in Segment mode: a directional range is
normalized (`start > end` swapped) and merged once. -/
def addrange (range : Range) (setname : Str) (map : List Seg) : List Seg :=
  let r := if range.«end» < range.start then
             { start := range.«end», «end» := range.start } else range
  _addendranges (_insertrange r.start r.«end» setname
    { newmap := [], rest := map, setindex := 0 })

/-! ## Position queries (`SOT.text.map.range`) -/

/-- `map[k].range.start`; out of bounds is unreachable at every use below. -/
def startAt (map : List Seg) (k : Nat) : Nat :=
  ((map.get? k).map (fun s => s.range.start)).getD 0

/-- `map[k].range.end`; out of bounds is unreachable at every use below. -/
def endAt (map : List Seg) (k : Nat) : Nat :=
  ((map.get? k).map (fun s => s.range.«end»)).getD 0

/-- JavaScript `Math.round` on the (exactly represented) dyadic values the
binary search manipulates: round half toward positive infinity. -/
def jsRound (q : ℚ) : ℤ := ⌊q + 1/2⌋

/-- The `for( i=j; Math.round(j); j/=2, map[Math.round(i)].range.end<=pos ?
i+=j : i-=j )` bisection of `next`, run on exact numbers.  The loop
terminates when `Math.round(j)` is 0; `fuel` only bounds the recursion and
is chosen large enough that it never cuts the loop short. -/
def binLoop (pos : Nat) (map : List Seg) : Nat → ℚ → ℚ → ℚ
  | 0, i, _ => i
  | fuel + 1, i, j =>
    if jsRound j = 0 then i
    else
      let j2 := j / 2
      if endAt map (jsRound i).toNat ≤ pos then binLoop pos map fuel (i + j2) j2
      else binLoop pos map fuel (i - j2) j2

/-- The trailing `for( ; i < map.length && map[i].range.end <= pos; i++ )`
scan of `next`. -/
def nextFixup (pos : Nat) (map : List Seg) : Nat → Nat → Nat
  | 0, i => i
  | fuel + 1, i =>
    if i < map.length then
      if endAt map i ≤ pos then nextFixup pos map fuel (i + 1) else i
    else i

/-- `SOT.text.map.range.next`: index of the first segment whose end
exceeds `pos` (or `map.length`), `-1` on an empty map. -/
def next (pos : Nat) (map : List Seg) : ℤ :=
  if map.length = 0 then -1
  else if pos < endAt map 0 then
    (nextFixup pos map map.length 0 : ℤ)
  else
    let i0 := map.length - 1
    let i1 : Nat :=
      if pos < startAt map i0 then
        let j : ℚ := (map.length : ℚ) / 2
        (jsRound (binLoop pos map (map.length + 1) j j)).toNat
      else i0
    (nextFixup pos map map.length i1 : ℤ)

/-- `SOT.text.map.range.isposin`. -/
def isposin (pos : Nat) (map : List Seg) (i : ℤ) : Bool :=
  decide (0 ≤ i) && decide (i < map.length) &&
  decide (startAt map i.toNat ≤ pos) && decide (pos ≤ endAt map i.toNat)

/-- `SOT.text.map.range.atpos`. -/
def atpos (pos : Nat) (map : List Seg) : ℤ :=
  let i := next pos map
  if isposin pos map i then i else -1

/-! ## Replace operations (`SOT.text.map.replace` / `replaceall`)

JavaScript string primitives used by them, on `List Char`:
`text.slice(a, b)` and `text.substring(a, b)` for `Nat` arguments, and the
`$`-placeholder expansion that `String.prototype.replace` performs on its
replacement argument (ECMAScript GetSubstitution; the source has no
capture groups in these calls, so `$digit` and `$<...>` stay literal). -/

def jsSlice (text : Str) (a b : Nat) : Str := (text.take b).drop a

def jsSubstring (text : Str) (a b : Nat) : Str := (text.take (max a b)).drop (min a b)

/-- ECMAScript GetSubstitution for a match of `matched` with the text
`before` to its left and `after` to its right, applied to the replacement
template.  `Char.ofNat 96` is the backquote and `Char.ofNat 39` the
single quote. -/
def getSubstitution (matched before after : Str) : Str → Str
  | [] => []
  | '$' :: d :: rest =>
    if d = '$' then '$' :: getSubstitution matched before after rest
    else if d = '&' then matched ++ getSubstitution matched before after rest
    else if d = Char.ofNat 96 then before ++ getSubstitution matched before after rest
    else if d = Char.ofNat 39 then after ++ getSubstitution matched before after rest
    else '$' :: getSubstitution matched before after (d :: rest)
  | c :: rest => c :: getSubstitution matched before after rest

/-- `token.replace( token, w )`: the string search finds `token` in itself
at position 0, so the result is the expanded replacement (before-match and
after-match context both empty). -/
def jsReplaceSelf (token w : Str) : Str :=
  getSubstitution token [] [] w

/-- The body of `replaceall`'s `for` loop; `n` is the cursor past the
previous segment's end. -/
def replaceallLoop (text : Str) (replacewiths : List (Str × Str)) :
    List Seg → Nat → Str → Str
  | [], n, newtext => newtext ++ text.drop n
  | s :: rest, n, newtext =>
    let pre := newtext ++ jsSlice text n s.range.start
    let token := jsSubstring text s.range.start s.range.«end»
    let piece :=
      match s.origs with
      | [o] =>
        if o.range.start = s.range.start ∧ o.range.«end» = s.range.«end» then
          jsReplaceSelf token ((List.lookup o.setname replacewiths).getD ("undefined".toList))
        else token
      | _ => token
    replaceallLoop text replacewiths rest s.range.«end» (pre ++ piece)

/-- `SOT.text.map.replaceall`.  A replacement looked up at a missing
setname is JS `undefined`, which string concatenation coerces to the text
`"undefined"`. -/
def replaceall (text : Str) (map : List Seg) (replacewiths : List (Str × Str)) : Str :=
  if map.length = 0 then text
  else replaceallLoop text replacewiths map 0 []

/-- `SOT.text.map.replace`.  `none` models the `TypeError` the JS throws
on `map[i].origs[0].setname` when segment `i` has no origins. -/
def replace (text : Str) (map : List Seg) (i : Nat) (newtext : Str) : Option Str :=
  if map.length ≤ i then some text
  else
    match map.get? i with
    | none => some text
    | some s =>
      match s.origs with
      | [] => none
      | o :: _ => some (replaceall text [s] [(o.setname, newtext)])

/-! ## Markup renderer (`SOT.map.markup` and `SOT.text` helpers)

Modelling notes.  `opts` is reduced to its only read field (`htmltag`).
A `defs` entry keeps the fields `markup` reads: `htmltag`, `htmltagend`
(where `some []` is `htmltagend: ''`, present but empty), and string
`htmlattrs` templates; regex-valued attributes, like the regex engine
itself, are external extraction rules no claim exercises and are left
out, as is the optional per-tag `callback`.  Looking up `defs[setname]`
for a missing setname throws in JS; the default entry stands in and no
claim exercises that case. -/

/-- `newtext = text.replace( /c/g, s )` for a single-character pattern. -/
def jsReplaceAllChar (c : Char) (s : Str) (text : Str) : Str :=
  text.flatMap (fun x => if x = c then s else [x])

/-- `SOT.text.raw2HTML`: escape `&` first, then `>`, then `<`. -/
def raw2HTML (text : Str) : Str :=
  jsReplaceAllChar '<' ("&lt;".toList)
    (jsReplaceAllChar '>' ("&gt;".toList)
      (jsReplaceAllChar '&' ("&amp;".toList) text))

/-- A per-class render configuration (`defs[cls]`), restricted to the
fields `SOT.map.markup` reads. -/
structure DefEntry where
  htmltag : Option Str := none
  htmltagend : Option Str := none
  htmlattrs : List (Str × Str) := []
deriving DecidableEq, Repr

abbrev Defs := List (Str × DefEntry)

def lookupDef (defs : Defs) (k : Str) : DefEntry :=
  (List.lookup k defs).getD {}

/-- The default origin used for the (unreachable) out-of-bounds
`origs[layerindex]` access in `_istagdif`. -/
def origDefault : Orig := { setname := [], range := { start := 0, «end» := 0, setindex := 0 } }

/-- `_istagdif`: the tag at `layerindex` differs between `seg` and
`compareseg` when there is no `compareseg`, `compareseg` has no layer at
that depth, or setname or setindex disagree (the origin's stored range
endpoints are not compared). -/
def _istagdif (seg : Seg) (compareseg : Option Seg) (layerindex : Nat) : Bool :=
  match compareseg with
  | none => true
  | some cs =>
    decide (cs.origs.length ≤ layerindex) ||
    decide ((seg.origs.getD layerindex origDefault).setname ≠
            (cs.origs.getD layerindex origDefault).setname) ||
    decide ((seg.origs.getD layerindex origDefault).range.setindex ≠
            (cs.origs.getD layerindex origDefault).range.setindex)

/-- The `for( var depth=0; depth<seg.origs.length; depth++ )` loop of
`_difdepth`, counting up from `d` with `fuel` remaining iterations. -/
def _difdepthGo (seg : Seg) (compareseg : Option Seg) : Nat → Nat → Nat
  | 0, d => d
  | fuel + 1, d =>
    if d < seg.origs.length then
      if _istagdif seg compareseg d then d else _difdepthGo seg compareseg fuel (d + 1)
    else d

/-- `_difdepth`: first depth at which the two segments' tags differ. -/
def _difdepth (seg : Seg) (compareseg : Option Seg) : Nat :=
  _difdepthGo seg compareseg seg.origs.length 0

/-- JS object property assignment on an insertion-ordered association
list: overwrite in place or append. -/
def assocSet {β : Type} (l : List (Str × β)) (k : Str) (v : β) : List (Str × β) :=
  if (List.lookup k l).isSome then l.map (fun kv => if kv.1 = k then (k, v) else kv)
  else l ++ [(k, v)]

/-- The record `starts[layer.setname]` keeps for the later `R` patch. -/
structure StartRec where
  pos : Nat
  pieceindex : Nat
deriving DecidableEq, Repr

instance : Inhabited StartRec := ⟨⟨0, 0⟩⟩

abbrev Starts := List (Str × StartRec)

def startsErase (l : Starts) (k : Str) : Starts :=
  l.filter (fun kv => kv.1 ≠ k)

/-- `_tag( layer, end )`. -/
def _tag (optsHtmltag : Option Str) (defs : Option Defs) (layer : Orig) (isEnd : Bool) : Str :=
  let tag := optsHtmltag.getD ("mark".toList)
  match defs with
  | none => tag
  | some ds =>
    let d := lookupDef ds layer.setname
    if isEnd && d.htmltagend.isSome then d.htmltagend.getD []
    else
      match d.htmltag with
      | some t => if t ≠ [] then t else tag
      | none => tag

/-- First index at which `pat` occurs in `s` (JS `String.indexOf`). -/
def findSub (pat : Str) : Str → Option Nat
  | [] => if pat = [] then some 0 else none
  | c :: rest =>
    if pat.isPrefixOf (c :: rest) then some 0
    else (findSub pat rest).map (· + 1)

/-- `s.replace( pat, repl )` for string `pat`: replace the first
occurrence, expanding `$` placeholders in `repl`. -/
def jsReplaceFirst (s pat repl : Str) : Str :=
  match findSub pat s with
  | none => s
  | some idx =>
    s.take idx ++ getSubstitution pat (s.take idx) (s.drop (idx + pat.length)) repl ++
      s.drop (idx + pat.length)

/-- `_addattrs` (string-template attributes): each template has its
`$_&` placeholder replaced by the text the origin's range covers. -/
def _addattrs (fulltext : Str) (attrs : List (Str × Str)) (addattrs : List (Str × Str))
    (origrange : ORange) : List (Str × Str) :=
  addattrs.foldl
    (fun acc av =>
      assocSet acc av.1
        (jsReplaceFirst av.2 ("$_&".toList) (jsSlice fulltext origrange.start origrange.«end»)))
    attrs

/-- `_tagstart`: build one opening tag; `class` gets an `L` marker when
the origin starts exactly at the segment, then two padding spaces, and
the buffer position of the second space is recorded in `starts` for the
later `R` patch. -/
def _tagstart (fulltext : Str) (optsHtmltag : Option Str) (defs : Option Defs)
    (segrange : Range) (layer : Orig) (pieceindex : Nat) (offset : Nat)
    (starts : Starts) : Str × Starts :=
  let tag := _tag optsHtmltag defs layer false
  let attrs : List (Str × Str) :=
    [(("class".toList),
      layer.setname ++ (if layer.range.start = segrange.start then (" L".toList) else []))]
  let attrs :=
    match defs with
    | some ds => _addattrs fulltext attrs (lookupDef ds layer.setname).htmlattrs layer.range
    | none => attrs
  let emit :=
    attrs.foldl
      (fun (acc : Str × Starts) av =>
        let t := acc.1 ++ [' '] ++ av.1 ++ (if av.2 ≠ [] then ("=".toList ++ ['"'] ++ av.2) else [])
        let ts :=
          if av.1 = ("class".toList) then
            let t2 := t ++ ("  ".toList)
            (t2, assocSet acc.2 layer.setname
                   { pos := offset + t2.length - 1, pieceindex := pieceindex })
          else (t, acc.2)
        (ts.1 ++ (if av.2 ≠ [] then ['"'] else []), ts.2))
      (("<".toList ++ tag), starts)
  (emit.1 ++ [Char.ofNat 62], emit.2)

/-- `_layersstart`: open every layer from the difference depth on;
`offset` inside each tag is the length of the tags already built for this
segment. -/
def _layersstart (fulltext : Str) (optsHtmltag : Option Str) (defs : Option Defs)
    (prevseg : Option Seg) (seg : Seg) (pieceindex : Nat) (starts : Starts) :
    Str × Starts :=
  let j := _difdepth seg prevseg
  (seg.origs.drop j).foldl
    (fun acc layer =>
      let ts := _tagstart fulltext optsHtmltag defs seg.range layer pieceindex acc.1.length acc.2
      (acc.1 ++ ts.1, ts.2))
    ([], starts)

/-- `_tagend`: closing tag, dropped entirely when the configured closing
tag is the empty string; the tag name is the leading `[A-Za-z0-9-_]+` run. -/
def jsTagChar (c : Char) : Bool :=
  decide (('A' ≤ c ∧ c ≤ 'Z') ∨ ('a' ≤ c ∧ c ≤ 'z') ∨ ('0' ≤ c ∧ c ≤ '9') ∨ c = '-' ∨ c = '_')

def _tagend (optsHtmltag : Option Str) (defs : Option Defs) (layer : Orig) : Str :=
  let tag := _tag optsHtmltag defs layer true
  if tag = [] then []
  else ("</".toList) ++ tag.takeWhile jsTagChar ++ [Char.ofNat 62]

/-- `_layersend`: close every layer from the last down to the difference
depth with the next segment. -/
def _layersend (optsHtmltag : Option Str) (defs : Option Defs) (seg : Seg)
    (nextseg : Option Seg) : Str :=
  let j := _difdepth seg nextseg
  ((seg.origs.drop j).reverse).foldl (fun t layer => t ++ _tagend optsHtmltag defs layer) []

/-- `piece.slice(0,pos) + "R" + piece.slice(pos+1)`. -/
def patchPiece (piece : Str) (pos : Nat) : Str :=
  piece.take pos ++ ['R'] ++ piece.drop (pos + 1)

/-- `_setlayerright`: for every origin of `seg` whose own range ends at
the segment's end and still has a recorded start, patch the recorded
buffer position to `R` and forget the record. -/
def _setlayerright (seg : Seg) (html : List Str) (starts : Starts) : List Str × Starts :=
  seg.origs.foldl
    (fun (acc : List Str × Starts) layer =>
      match List.lookup layer.setname acc.2 with
      | some sr =>
        if layer.range.«end» = seg.range.«end» then
          (acc.1.set sr.pieceindex (patchPiece (acc.1.getD sr.pieceindex []) sr.pos),
           startsErase acc.2 layer.setname)
        else acc
      | none => acc)
    (html, starts)

/-- The walk state of `SOT.map.markup`: the fragment buffer `html`, the
pending plain-text accumulator `text`, the `starts` records and the
cursor `n` past the previous segment's end. -/
structure MState where
  html : List Str
  text : Str
  starts : Starts
  n : Nat
deriving DecidableEq, Repr

/-- `htmladd`: push a fragment only when non-empty. -/
def htmladd (html : List Str) (piece : Str) : List Str :=
  if piece = [] then html else html ++ [piece]

/-- The main `for( var i=0,n=0; i<map.length; prevseg=seg,i++ )` walk of
`SOT.map.markup`. -/
def markupLoop (fulltext : Str) (optsHtmltag : Option Str) (defs : Option Defs) :
    List Seg → Option Seg → MState → MState
  | [], _, st => st
  | seg :: rest, prevseg, st =>
    let html := htmladd st.html (raw2HTML (jsSlice fulltext st.n seg.range.start))
    let nextseg := rest.head?
    let pieceindex := if st.text ≠ [] then html.length + 1 else html.length
    let insidetext := raw2HTML (jsSlice fulltext seg.range.start seg.range.«end»)
    let start := _layersstart fulltext optsHtmltag defs prevseg seg pieceindex st.starts
    let ht :=
      if start.1 ≠ [] then
        (htmladd (htmladd (htmladd html st.text) start.1) insidetext, ([] : Str))
      else (html, st.text ++ insidetext)
    let endtags := _layersend optsHtmltag defs seg nextseg
    let hts :=
      if endtags ≠ [] then
        let html2 := if ht.2 ≠ [] then htmladd ht.1 (ht.2 ++ endtags) else htmladd ht.1 endtags
        let hs := _setlayerright seg html2 start.2
        (hs.1, ([] : Str), hs.2)
      else (ht.1, ht.2, start.2)
    markupLoop fulltext optsHtmltag defs rest (some seg)
      { html := hts.1, text := hts.2.1, starts := hts.2.2, n := seg.range.«end» }

/-- `SOT.map.markup`: note the pending `text` accumulator is *not*
flushed after the walk — only the `html` fragments and the trailing
escaped text form the result, exactly as in the source. -/
def markup (fulltext : Str) (map : List Seg) (optsHtmltag : Option Str)
    (defs : Option Defs) : Str :=
  let st := markupLoop fulltext optsHtmltag defs map none
    { html := [], text := [], starts := [], n := 0 }
  st.html.foldl (· ++ ·) [] ++ raw2HTML (fulltext.drop st.n)

/-! ## Specification-side predicates -/

/-- Ranges are strictly ascending (each later segment starts strictly
after each earlier one starts). -/
def Ascending (map : List Seg) : Prop :=
  List.Pairwise (fun a b => a.range.start < b.range.start) map

/-- Half-open segment ranges are pairwise non-overlapping. -/
def NonOverlapping (map : List Seg) : Prop :=
  List.Pairwise (fun a b => a.range.«end» ≤ b.range.start ∨ b.range.«end» ≤ a.range.start) map

/-- Working form of the map invariant: segments are consecutive
left-to-right. -/
def SegSorted (map : List Seg) : Prop :=
  List.Pairwise (fun a b => a.range.«end» ≤ b.range.start) map

/-- Every stored segment has a non-degenerate range. -/
def NonDeg (map : List Seg) : Prop :=
  ∀ s ∈ map, s.range.start < s.range.«end»

/-- Position `pos` lies inside some segment of the map. -/
def covered (map : List Seg) (pos : Nat) : Prop :=
  ∃ s ∈ map, s.range.start ≤ pos ∧ pos < s.range.«end»

/-- Length of the common leading prefix of two origin lists under an
agreement relation (the spec's "open depth"). -/
def commonPrefixLen (eqv : Orig → Orig → Prop) [DecidableRel eqv] :
    List Orig → List Orig → Nat
  | a :: as, b :: bs => if eqv a b then commonPrefixLen eqv as bs + 1 else 0
  | _, _ => 0

/-- Agreement on the full Origin value, as claim C4 words it. -/
def origFullEq (a b : Orig) : Prop := a = b

instance : DecidableRel origFullEq := fun a b => decEq a b

/-- Agreement on setname and sequence number only, as `_istagdif`
implements it. -/
def origKeyEq (a b : Orig) : Prop :=
  a.setname = b.setname ∧ a.range.setindex = b.range.setindex

instance : DecidableRel origKeyEq := fun _ _ => instDecidableAnd

/-! ## Insertion sequences

A Segment-mode insertion is either one `addrange` call or one
`addmatches` call (the latter carrying the ordered match list the regex
engine produced).  Folding a list of them over a map is exactly what
`SOT.PatternSeries.buildmap` does entry by entry. -/

/-- One public Segment-mode insertion. -/
inductive Ins where
  | rng (r : Range) (name : Str)
  | mts (ms : List Range) (name : Str)
deriving DecidableEq, Repr

/-- The set name an insertion registers its origins under. -/
def insName : Ins → Str
  | .rng _ n => n
  | .mts _ n => n

/-- Perform one insertion on a map. -/
def applyIns (map : List Seg) : Ins → List Seg
  | .rng r n => addrange r n map
  | .mts ms n => addmatches ms n map

/-- Well-formed insertion input: a range with distinct endpoints, or a
match list of non-empty matches in left-to-right non-overlapping order
(what `text.matchAll` delivers when no match is empty). -/
def InsWF : Ins → Prop
  | .rng r _ => r.start ≠ r.«end»
  | .mts ms _ => (∀ mt ∈ ms, mt.start < mt.«end») ∧
      List.Pairwise (fun a c => a.«end» ≤ c.start) ms

instance : DecidablePred InsWF := fun op =>
  match op with
  | .rng r _ => inferInstanceAs (Decidable (r.start ≠ r.«end»))
  | .mts ms _ => inferInstanceAs (Decidable ((∀ mt ∈ ms, mt.start < mt.«end») ∧
      List.Pairwise (fun (a c : Range) => a.«end» ≤ c.start) ms))

/-- The set of positions an insertion claims (an `addrange` range is
normalized first, so its ball is `[min, max)`). -/
def insCovers (pos : Nat) : Ins → Prop
  | .rng r _ => min r.start r.«end» ≤ pos ∧ pos < max r.start r.«end»
  | .mts ms _ => ∃ mt ∈ ms, mt.start ≤ pos ∧ pos < mt.«end»

/-- Every origin stored in the map has rank (under a fixed ranking of set
names) at most `bound`, and each segment lists its origins in
non-decreasing rank order — outermost first. -/
def OrigsRanked (rk : Str → Nat) (bound : Nat) (map : List Seg) : Prop :=
  ∀ s ∈ map, List.Pairwise (fun a c => rk a.setname ≤ rk c.setname) s.origs ∧
    ∀ o ∈ s.origs, rk o.setname ≤ bound

/-- Rank of the last insertion of a sequence (`b` when it is empty). -/
def lastRank (rk : Str → Nat) : Nat → List Ins → Nat
  | b, [] => b
  | _, op :: t => lastRank rk (rk (insName op)) t

/-! ## `SOT.PatternSeries.buildmap`

A registry entry `defs[cls]` is (for the entries the claims quantify
over) either a matcher — modelled by the ordered match list its regex
yields on the text at hand, the regex engine being an external
collaborator — or an explicit range. -/

inductive PDef where
  | regex (ms : List Range)
  | rng (r : Range)
deriving DecidableEq, Repr

/-- A registry in registration (object-key) order. -/
abbrev Registry := List (Str × PDef)

/-- The insertion a registry entry performs. -/
def entryIns : Str × PDef → Ins
  | (cls, .regex ms) => .mts ms cls
  | (cls, .rng r) => .rng r cls

def isRegexEntry : Str × PDef → Bool
  | (_, .regex _) => true
  | (_, .rng _) => false

/-- `SOT.PatternSeries.buildmatchesmap`: one pass over the registry,
merging only the matcher entries. -/
def buildmatchesmap (defs : Registry) (map : List Seg) : List Seg :=
  defs.foldl (fun m e => match e.2 with
    | .regex ms => addmatches ms e.1 m
    | .rng _ => m) map

/-- `SOT.PatternSeries.buildrangesmap`: one pass over the registry,
merging only the explicit-range entries. -/
def buildrangesmap (defs : Registry) (map : List Seg) : List Seg :=
  defs.foldl (fun m e => match e.2 with
    | .rng r => addrange r e.1 m
    | .regex _ => m) map

/-- `SOT.PatternSeries.buildmap`: with `overlayranges` (the default) all
matcher entries are merged first and all explicit ranges after them;
otherwise every entry is merged in registration order. -/
def buildmap (defs : Registry) (map : List Seg) (overlayranges : Bool) : List Seg :=
  if overlayranges then buildrangesmap defs (buildmatchesmap defs map)
  else defs.foldl (fun m e => applyIns m (entryIns e)) map

/-! ## The Segment-mode insertion invariant (used by claims C1 and C3) -/

theorem seg2_eq (m i : Seg) :
    _seg2 m i =
      ((if min m.range.start i.range.start < max m.range.start i.range.start then
          [mkseg (min m.range.start i.range.start) (max m.range.start i.range.start)
            (if min m.range.start i.range.start < i.range.start then m.origs else i.origs)]
        else []) ++
        [mkseg (max m.range.start i.range.start) (min m.range.«end» i.range.«end»)
          (i.origs ++ m.origs)],
       mkseg (min m.range.«end» i.range.«end») (max m.range.«end» i.range.«end»)
         (if min m.range.«end» i.range.«end» < m.range.«end» then m.origs else i.origs)) :=
  rfl

/-- All facts about one `_seg2` split that the merge-loop induction
needs, under the geometric preconditions the loop guarantees. -/
theorem seg2_spec (m i : Seg) (hm : m.range.start < m.range.«end»)
    (hi : i.range.start < i.range.«end») (hmi : m.range.start < i.range.«end»)
    (him : i.range.start < m.range.«end») :
    (∀ x ∈ (_seg2 m i).1,
       (x.origs = m.origs ∨ x.origs = i.origs ∨ x.origs = i.origs ++ m.origs) ∧
       min m.range.start i.range.start ≤ x.range.start ∧
       x.range.start < x.range.«end» ∧
       x.range.«end» ≤ (_seg2 m i).2.range.start) ∧
    SegSorted (_seg2 m i).1 ∧
    (_seg2 m i).2.range.start = min m.range.«end» i.range.«end» ∧
    (_seg2 m i).2.range.«end» = max m.range.«end» i.range.«end» ∧
    ((_seg2 m i).2.origs = m.origs ∧ i.range.«end» < m.range.«end» ∨
     (_seg2 m i).2.origs = i.origs ∧ m.range.«end» ≤ i.range.«end») ∧
    (∀ pos : Nat,
      (covered (_seg2 m i).1 pos ∨
        ((_seg2 m i).2.range.start ≤ pos ∧ pos < (_seg2 m i).2.range.«end»)) ↔
      ((m.range.start ≤ pos ∧ pos < m.range.«end») ∨
       (i.range.start ≤ pos ∧ pos < i.range.«end»))) := by
  rw [seg2_eq]
  refine ⟨?_, ?_, rfl, rfl, ?_, ?_⟩
  · intro x hx
    dsimp only [mkseg]
    simp only [List.mem_append, List.mem_singleton] at hx
    rcases hx with hx | hx
    · split_ifs at hx with h1 h2
      · rw [List.mem_singleton] at hx
        subst hx
        refine ⟨Or.inl rfl, ?_, ?_, ?_⟩ <;> simp [mkseg] <;> omega
      · rw [List.mem_singleton] at hx
        subst hx
        refine ⟨Or.inr (Or.inl rfl), ?_, ?_, ?_⟩ <;> simp [mkseg] <;> omega
      · simp at hx
    · subst hx
      refine ⟨Or.inr (Or.inr rfl), ?_, ?_, ?_⟩ <;> simp [mkseg] <;> omega
  · unfold SegSorted
    split_ifs with h1 h2 <;> simp [mkseg]
  · dsimp only [mkseg]
    split_ifs with h1
    · exact Or.inl ⟨rfl, by omega⟩
    · exact Or.inr ⟨rfl, by omega⟩
  · intro pos
    unfold covered
    split_ifs with h1 h2 <;> simp [mkseg] <;> omega

/-- When every unread old segment starts at or past the fragment's end,
the merge loop does nothing. -/
theorem segmentLoop_noop (rest : List Seg) (m : Seg) (newmap : List Seg)
    (h : ∀ x ∈ rest, m.range.«end» ≤ x.range.start) :
    segmentLoop rest m newmap = (newmap, m, rest) := by
  cases rest with
  | nil => rfl
  | cons i rest =>
    unfold segmentLoop
    rw [if_neg (by
      have := h i (by simp)
      omega)]

theorem covered_append (a b : List Seg) (pos : Nat) :
    covered (a ++ b) pos ↔ covered a pos ∨ covered b pos := by
  unfold covered
  constructor
  · rintro ⟨s, hs, h⟩
    rcases List.mem_append.mp hs with hs | hs
    · exact Or.inl ⟨s, hs, h⟩
    · exact Or.inr ⟨s, hs, h⟩
  · rintro (⟨s, hs, h⟩ | ⟨s, hs, h⟩)
    · exact ⟨s, List.mem_append_left _ hs, h⟩
    · exact ⟨s, List.mem_append_right _ hs, h⟩

theorem covered_cons (i : Seg) (l : List Seg) (pos : Nat) :
    covered (i :: l) pos ↔
      (i.range.start ≤ pos ∧ pos < i.range.«end») ∨ covered l pos := by
  unfold covered
  simp [List.mem_cons, exists_eq_or_imp]

/-- Everything one run of the merge loop guarantees.  `m0origs` is the
origin list carried by the fragment whenever a push happens (the freshly
inserted origin singleton). -/
structure LoopPost (m0origs : List Orig) (rest newmap : List Seg) (m : Seg)
    (out : List Seg × Seg × List Seg) : Prop where
  sorted : SegSorted out.1
  nondeg : NonDeg out.1
  left : ∀ x ∈ out.1, x.range.«end» ≤ out.2.1.range.start
  mle : out.2.1.range.start ≤ out.2.1.range.«end»
  mstart : out.2.1.range.start ≤ m.range.«end»
  suffix : out.2.2 <:+ rest
  right : ∀ b ∈ out.2.2, out.2.1.range.«end» ≤ b.range.start
  prov : ∀ x ∈ out.1, x ∈ newmap ∨ x.origs = m0origs ∨
    ∃ y ∈ rest, x.origs = y.origs ∨ x.origs = y.origs ++ m0origs
  mprov : out.2.1.origs = m.origs ∨ ∃ y ∈ rest, out.2.1.origs = y.origs
  cover : ∀ pos : Nat,
    (covered out.1 pos ∨ (out.2.1.range.start ≤ pos ∧ pos < out.2.1.range.«end») ∨
      covered out.2.2 pos) ↔
    (covered newmap pos ∨ (m.range.start ≤ pos ∧ pos < m.range.«end») ∨
      covered rest pos)

set_option maxHeartbeats 2000000 in
theorem segmentLoop_spec (m0origs : List Orig) :
    ∀ (rest : List Seg) (m : Seg) (newmap : List Seg),
      SegSorted newmap → NonDeg newmap → SegSorted rest → NonDeg rest →
      (∀ x ∈ newmap, x.range.«end» ≤ m.range.start) →
      m.range.start ≤ m.range.«end» →
      (∀ x ∈ rest, m.range.start < x.range.«end») →
      (m.range.start = m.range.«end» → ∀ x ∈ rest, m.range.«end» ≤ x.range.start) →
      (∀ a ∈ newmap, ∀ b ∈ rest, a.range.«end» ≤ b.range.start) →
      (m.origs = m0origs ∨ ∀ x ∈ rest, m.range.«end» ≤ x.range.start) →
      LoopPost m0origs rest newmap m (segmentLoop rest m newmap)
  | [], m, newmap, hsN, hnN, _, _, hleft, hm, _, _, _, _ => by
    unfold segmentLoop
    exact {
      sorted := hsN
      nondeg := hnN
      left := hleft
      mle := hm
      mstart := hm
      suffix := List.nil_suffix
      right := by simp
      prov := fun x hx => Or.inl hx
      mprov := Or.inl rfl
      cover := fun _ => Iff.rfl }
  | i :: rest, m, newmap, hsN, hnN, hsR, hnR, hleft, hm, hrE, hdeg, hcross, hor => by
    show LoopPost m0origs (i :: rest) newmap m
      (if i.range.start < m.range.«end» then
        segmentLoop rest (_seg2 m i).2 (newmap ++ (_seg2 m i).1)
      else (newmap, m, i :: rest))
    by_cases hcond : i.range.start < m.range.«end»
    · rw [if_pos hcond]
      have hmnd : m.range.start < m.range.«end» := by
        rcases Nat.lt_or_ge m.range.start m.range.«end» with h | h
        · exact h
        · have he : m.range.start = m.range.«end» := Nat.le_antisymm hm h
          have := hdeg he i (by simp)
          omega
      have hind : i.range.start < i.range.«end» := hnR i (by simp)
      have hmiE : m.range.start < i.range.«end» := hrE i (by simp)
      have hspec := seg2_spec m i hmnd hind hmiE hcond
      generalize hprdef : _seg2 m i = pr at hspec ⊢
      obtain ⟨hpush, hpsorted, hm2s, hm2e, hm2or, hcov⟩ := hspec
      have hm0 : m.origs = m0origs := by
        rcases hor with h | h
        · exact h
        · have := h i (by simp); omega
      have hitail : ∀ x ∈ rest, i.range.«end» ≤ x.range.start :=
        (List.pairwise_cons.mp hsR).1
      have hsRt : SegSorted rest := (List.pairwise_cons.mp hsR).2
      have hnRt : NonDeg rest := fun x hx => hnR x (List.mem_cons_of_mem _ hx)
      -- facts shared by the keep and switch branches
      have hm2sle : m.range.start ≤ pr.2.range.start := by rw [hm2s]; omega
      have hsN2 : SegSorted (newmap ++ pr.1) := by
        rw [SegSorted, List.pairwise_append]
        refine ⟨hsN, hpsorted, fun a ha b hb => ?_⟩
        have h1 := hleft a ha
        have h2 := hcross a ha i (by simp)
        have h3 := (hpush b hb).2.1
        omega
      have hnN2 : NonDeg (newmap ++ pr.1) := by
        intro x hx
        rcases List.mem_append.mp hx with hx | hx
        · exact hnN x hx
        · exact (hpush x hx).2.2.1
      have hleft2 : ∀ x ∈ newmap ++ pr.1,
          x.range.«end» ≤ pr.2.range.start := by
        intro x hx
        rcases List.mem_append.mp hx with hx | hx
        · have := hleft x hx; omega
        · exact (hpush x hx).2.2.2
      have hprov2 : ∀ x ∈ newmap ++ pr.1,
          x ∈ newmap ∨ x.origs = m0origs ∨
            ∃ y ∈ i :: rest, x.origs = y.origs ∨ x.origs = y.origs ++ m0origs := by
        intro x hx
        rcases List.mem_append.mp hx with hx | hx
        · exact Or.inl hx
        · rcases (hpush x hx).1 with h | h | h
          · exact Or.inr (Or.inl (h.trans hm0))
          · exact Or.inr (Or.inr ⟨i, by simp, Or.inl h⟩)
          · exact Or.inr (Or.inr ⟨i, by simp, Or.inr (by rw [h, hm0])⟩)
      have hcross2 : ∀ a ∈ newmap ++ pr.1, ∀ b ∈ rest,
          a.range.«end» ≤ b.range.start := by
        intro a ha b hb
        rcases List.mem_append.mp ha with ha | ha
        · exact hcross a ha b (List.mem_cons_of_mem _ hb)
        · have h1 := (hpush a ha).2.2.2
          have h2 := hitail b hb
          rw [hm2s] at h1
          omega
      rcases hm2or with ⟨hmor, hke⟩ | ⟨hmor, hsw⟩
      · -- the fragment extends past the old segment: keep merging
        have post := segmentLoop_spec m0origs rest pr.2 (newmap ++ pr.1)
          hsN2 hnN2 hsRt hnRt hleft2
          (by rw [hm2s, hm2e]; omega)
          (fun x hx => by
            have h1 := hitail x hx
            have h2 := hnRt x hx
            rw [hm2s]; omega)
          (fun hdg => by rw [hm2s, hm2e] at hdg; omega)
          hcross2
          (Or.inl (hmor.trans hm0))
        exact {
          sorted := post.sorted
          nondeg := post.nondeg
          left := post.left
          mle := post.mle
          mstart := by
            have h1 := post.mstart
            rw [hm2e] at h1
            omega
          suffix := post.suffix.trans (List.suffix_cons i rest)
          right := post.right
          prov := fun x hx => by
            rcases post.prov x hx with h | h | ⟨y, hy, h⟩
            · exact hprov2 x h
            · exact Or.inr (Or.inl h)
            · exact Or.inr (Or.inr ⟨y, List.mem_cons_of_mem _ hy, h⟩)
          mprov := by
            rcases post.mprov with h | ⟨y, hy, h⟩
            · exact Or.inl (h.trans hmor)
            · exact Or.inr ⟨y, List.mem_cons_of_mem _ hy, h⟩
          cover := fun pos => by
            have h1 := post.cover pos
            have h2 := hcov pos
            rw [covered_append] at h1
            rw [covered_cons]
            constructor
            · intro h
              rcases h1.mp h with (h | h) | h | h
              · exact Or.inl h
              · rcases h2.mp (Or.inl h) with h' | h'
                · exact Or.inr (Or.inl h')
                · exact Or.inr (Or.inr (Or.inl h'))
              · rcases h2.mp (Or.inr h) with h' | h'
                · exact Or.inr (Or.inl h')
                · exact Or.inr (Or.inr (Or.inl h'))
              · exact Or.inr (Or.inr (Or.inr h))
            · intro h
              apply h1.mpr
              rcases h with h | h | h | h
              · exact Or.inl (Or.inl h)
              · rcases h2.mpr (Or.inl h) with h' | h'
                · exact Or.inl (Or.inr h')
                · exact Or.inr (Or.inl h')
              · rcases h2.mpr (Or.inr h) with h' | h'
                · exact Or.inl (Or.inr h')
                · exact Or.inr (Or.inl h')
              · exact Or.inr (Or.inr h) }
      · -- the old segment reaches past the fragment: the loop is done
        rw [segmentLoop_noop rest pr.2 (newmap ++ pr.1)
          (fun x hx => by have := hitail x hx; rw [hm2e]; omega)]
        refine {
          sorted := hsN2
          nondeg := hnN2
          left := hleft2
          mle := by rw [hm2s, hm2e]; omega
          mstart := by rw [hm2s]; omega
          suffix := List.suffix_cons i rest
          right := fun b hb => by have := hitail b hb; rw [hm2e]; omega
          prov := hprov2
          mprov := Or.inr ⟨i, by simp, hmor⟩
          cover := fun pos => by
            have h2 := hcov pos
            rw [covered_append, covered_cons]
            constructor
            · intro h
              rcases h with (h | h) | h | h
              · exact Or.inl h
              · rcases h2.mp (Or.inl h) with h' | h'
                · exact Or.inr (Or.inl h')
                · exact Or.inr (Or.inr (Or.inl h'))
              · rcases h2.mp (Or.inr h) with h' | h'
                · exact Or.inr (Or.inl h')
                · exact Or.inr (Or.inr (Or.inl h'))
              · exact Or.inr (Or.inr (Or.inr h))
            · intro h
              rcases h with h | h | h | h
              · exact Or.inl (Or.inl h)
              · rcases h2.mpr (Or.inl h) with h' | h'
                · exact Or.inl (Or.inr h')
                · exact Or.inr (Or.inl h')
              · rcases h2.mpr (Or.inr h) with h' | h'
                · exact Or.inl (Or.inr h')
                · exact Or.inr (Or.inl h')
              · exact Or.inr (Or.inr h) }
    · rw [if_neg hcond]
      exact {
        sorted := hsN
        nondeg := hnN
        left := hleft
        mle := hm
        mstart := hm
        suffix := List.suffix_refl _
        right := fun b hb => by
          show m.range.«end» ≤ b.range.start
          rcases List.mem_cons.mp hb with hb | hb
          · subst hb; omega
          · have h1 := (List.pairwise_cons.mp hsR).1 b hb
            have h2 := hnR i (by simp)
            omega
        prov := fun x hx => Or.inl hx
        mprov := Or.inl rfl
        cover := fun _ => Iff.rfl }

/-- Facts about `_segment`'s final assembly: the dangling fragment is
appended exactly when non-degenerate. -/
theorem segment_assemble (m0origs : List Orig) (rest newmap0 : List Seg) (m : Seg)
    (out : List Seg × Seg × List Seg) (post : LoopPost m0origs rest newmap0 m out) :
    SegSorted (if out.2.1.range.start < out.2.1.range.«end» then
      out.1 ++ [out.2.1] else out.1) ∧
    NonDeg (if out.2.1.range.start < out.2.1.range.«end» then
      out.1 ++ [out.2.1] else out.1) ∧
    (∀ a ∈ (if out.2.1.range.start < out.2.1.range.«end» then
        out.1 ++ [out.2.1] else out.1), ∀ b ∈ out.2.2,
      a.range.«end» ≤ b.range.start) ∧
    (∀ x ∈ (if out.2.1.range.start < out.2.1.range.«end» then
        out.1 ++ [out.2.1] else out.1), x ∈ out.1 ∨ x = out.2.1) ∧
    (∀ pos : Nat,
      covered ((if out.2.1.range.start < out.2.1.range.«end» then
          out.1 ++ [out.2.1] else out.1) ++ out.2.2) pos ↔
        (covered out.1 pos ∨
          (out.2.1.range.start ≤ pos ∧ pos < out.2.1.range.«end») ∨
          covered out.2.2 pos)) := by
  split_ifs with hnd
  · refine ⟨?_, ?_, ?_, ?_, ?_⟩
    · rw [SegSorted, List.pairwise_append]
      refine ⟨post.sorted, by simp, fun a ha b hb => ?_⟩
      rw [List.mem_singleton] at hb
      subst hb
      exact post.left a ha
    · intro x hx
      rcases List.mem_append.mp hx with hx | hx
      · exact post.nondeg x hx
      · rw [List.mem_singleton] at hx; subst hx; exact hnd
    · intro a ha b hb
      rcases List.mem_append.mp ha with ha | ha
      · have h1 := post.left a ha
        have h2 := post.mle
        have h3 := post.right b hb
        omega
      · rw [List.mem_singleton] at ha; subst ha; exact post.right b hb
    · intro x hx
      rcases List.mem_append.mp hx with hx | hx
      · exact Or.inl hx
      · rw [List.mem_singleton] at hx; exact Or.inr hx
    · intro pos
      rw [covered_append, covered_append, covered_cons]
      unfold covered
      simp only [List.not_mem_nil, false_and, exists_false, or_false]
      rw [or_assoc]
  · refine ⟨post.sorted, post.nondeg, fun a ha b hb => ?_, fun x hx => Or.inl hx, ?_⟩
    · have h1 := post.left a ha
      have h2 := post.mle
      have h3 := post.right b hb
      omega
    · intro pos
      rw [covered_append]
      have hempty : ¬(out.2.1.range.start ≤ pos ∧ pos < out.2.1.range.«end») := by omega
      constructor
      · rintro (h | h)
        · exact Or.inl h
        · exact Or.inr (Or.inr h)
      · rintro (h | h | h)
        · exact Or.inl h
        · exact absurd h hempty
        · exact Or.inr h

/-- The complete specification of one Segment-mode `_segment` call under
the state invariant `_insertrange` maintains. -/
structure SegPost (nor : List Orig) (start «end» : Nat) (rest newmap : List Seg)
    (out : List Seg × List Seg) : Prop where
  sorted : SegSorted out.1
  nondeg : NonDeg out.1
  suffix : out.2 <:+ rest
  cross : ∀ a ∈ out.1, ∀ b ∈ out.2, a.range.«end» ≤ b.range.start
  startle : ∀ x ∈ out.1, x.range.start ≤ «end»
  prov : ∀ x ∈ out.1, x ∈ newmap ∨ x.origs = nor ∨
    ∃ y ∈ newmap ++ rest, x.origs = y.origs ∨ x.origs = y.origs ++ nor
  cover : ∀ pos : Nat, covered (out.1 ++ out.2) pos ↔
    (covered (newmap ++ rest) pos ∨ (start ≤ pos ∧ pos < «end»))

theorem segment_finish (nor : List Orig) (start «end» : Nat)
    (rest newmap nm0 : List Seg) (m : Seg)
    (post : LoopPost nor rest nm0 m (segmentLoop rest m nm0))
    (hstart2 : (segmentLoop rest m nm0).2.1.range.start ≤ «end»)
    (hprov0 : ∀ x ∈ nm0, x ∈ newmap ∨ x.origs = nor ∨
      ∃ y ∈ newmap ++ rest, x.origs = y.origs ∨ x.origs = y.origs ++ nor)
    (hmor0 : m.origs = nor ∨ ∃ y ∈ newmap ++ rest, m.origs = y.origs)
    (hcov0 : ∀ pos : Nat,
      (covered nm0 pos ∨ (m.range.start ≤ pos ∧ pos < m.range.«end») ∨
        covered rest pos) ↔
      (covered (newmap ++ rest) pos ∨ (start ≤ pos ∧ pos < «end»))) :
    SegPost nor start «end» rest newmap
      ((if (segmentLoop rest m nm0).2.1.range.start <
          (segmentLoop rest m nm0).2.1.range.«end» then
        (segmentLoop rest m nm0).1 ++ [(segmentLoop rest m nm0).2.1]
      else (segmentLoop rest m nm0).1),
       (segmentLoop rest m nm0).2.2) := by
  obtain ⟨hasort, hand, hacross, hamem, hacov⟩ :=
    segment_assemble nor rest nm0 m _ post
  refine ⟨hasort, hand, post.suffix, hacross, ?_, ?_, ?_⟩
  · intro x hx
    rcases hamem x hx with hx | hx
    · have h1 := post.left x hx
      have h2 := post.nondeg x hx
      omega
    · subst hx
      exact hstart2
  · intro x hx
    rcases hamem x hx with hx | hx
    · rcases post.prov x hx with h | h | ⟨y, hy, h⟩
      · exact hprov0 x h
      · exact Or.inr (Or.inl h)
      · exact Or.inr (Or.inr ⟨y, List.mem_append_right _ hy, h⟩)
    · subst hx
      rcases post.mprov with h | ⟨y, hy, h⟩
      · rcases hmor0 with h2 | ⟨y, hy, h2⟩
        · exact Or.inr (Or.inl (h.trans h2))
        · exact Or.inr (Or.inr ⟨y, hy, Or.inl (h.trans h2)⟩)
      · exact Or.inr (Or.inr ⟨y, List.mem_append_right _ hy, Or.inl h⟩)
  · intro pos
    rw [hacov pos]
    rw [← hcov0 pos]
    exact post.cover pos

set_option maxHeartbeats 1000000 in
theorem segment_spec (start «end» : Nat) (nor : List Orig) (rest newmap : List Seg)
    (hsN : SegSorted newmap) (hnN : NonDeg newmap)
    (hsR : SegSorted rest) (hnR : NonDeg rest)
    (hcross : ∀ a ∈ newmap, ∀ b ∈ rest, a.range.«end» ≤ b.range.start)
    (hstart : ∀ x ∈ newmap, x.range.start ≤ start)
    (hrE : ∀ x ∈ rest, start < x.range.«end»)
    (hse : start < «end») :
    SegPost nor start «end» rest newmap (_segment start «end» nor rest newmap) := by
  have hmnd : (mkseg start «end» nor).range.start < (mkseg start «end» nor).range.«end» :=
    hse
  match hlast : newmap.getLast? with
  | none =>
    have hnil : newmap = [] := List.getLast?_eq_none_iff.mp hlast
    subst hnil
    have heq : _segment start «end» nor rest [] =
        ((if (segmentLoop rest (mkseg start «end» nor) []).2.1.range.start <
            (segmentLoop rest (mkseg start «end» nor) []).2.1.range.«end» then
          (segmentLoop rest (mkseg start «end» nor) []).1 ++
            [(segmentLoop rest (mkseg start «end» nor) []).2.1]
        else (segmentLoop rest (mkseg start «end» nor) []).1),
         (segmentLoop rest (mkseg start «end» nor) []).2.2) := rfl
    rw [heq]
    have post := segmentLoop_spec nor rest (mkseg start «end» nor) []
      (by simp [SegSorted]) (by simp [NonDeg]) hsR hnR (by simp)
      (Nat.le_of_lt hse) (fun x hx => hrE x hx)
      (fun hdg => absurd hdg (by simp [mkseg]; omega)) (by simp) (Or.inl rfl)
    refine segment_finish nor start «end» rest [] [] (mkseg start «end» nor) post
      post.mstart (by simp) (Or.inl rfl) ?_
    intro pos
    show (covered [] pos ∨ (start ≤ pos ∧ pos < «end») ∨ covered rest pos) ↔
      (covered rest pos ∨ (start ≤ pos ∧ pos < «end»))
    constructor
    · rintro (h | h | h)
      · rcases h with ⟨y, hy, _⟩
        exact absurd hy (List.not_mem_nil y)
      · exact Or.inr h
      · exact Or.inl h
    · rintro (h | h)
      · exact Or.inr (Or.inr h)
      · exact Or.inr (Or.inl h)
  | some l =>
    have hlmem : l ∈ newmap := List.mem_of_mem_getLast? hlast
    have hldec : newmap.dropLast ++ [l] = newmap := List.dropLast_append_getLast? l hlast
    have hlnd : l.range.start < l.range.«end» := hnN l hlmem
    have hdrop : ∀ x ∈ newmap.dropLast, x ∈ newmap := by
      intro x hx
      rw [← hldec]
      exact List.mem_append_left _ hx
    have hdropLast : ∀ x ∈ newmap.dropLast, x.range.«end» ≤ l.range.start := by
      intro x hx
      have h2 : newmap.Pairwise (fun a b => a.range.«end» ≤ b.range.start) := hsN
      rw [← hldec, List.pairwise_append] at h2
      exact h2.2.2 x hx l (by simp)
    have hsdrop : SegSorted newmap.dropLast := by
      have h2 : newmap.Pairwise (fun a b => a.range.«end» ≤ b.range.start) := hsN
      rw [← hldec, List.pairwise_append] at h2
      exact h2.1
    by_cases hice : start < l.range.«end»
    · -- iceberg: the last accumulated segment reaches past this insertion
      have heq : _segment start «end» nor rest newmap =
          ((if (segmentLoop rest (_seg2 (mkseg start «end» nor) l).2
              (newmap.dropLast ++ (_seg2 (mkseg start «end» nor) l).1)).2.1.range.start <
            (segmentLoop rest (_seg2 (mkseg start «end» nor) l).2
              (newmap.dropLast ++ (_seg2 (mkseg start «end» nor) l).1)).2.1.range.«end» then
            (segmentLoop rest (_seg2 (mkseg start «end» nor) l).2
              (newmap.dropLast ++ (_seg2 (mkseg start «end» nor) l).1)).1 ++
              [(segmentLoop rest (_seg2 (mkseg start «end» nor) l).2
                (newmap.dropLast ++ (_seg2 (mkseg start «end» nor) l).1)).2.1]
          else (segmentLoop rest (_seg2 (mkseg start «end» nor) l).2
              (newmap.dropLast ++ (_seg2 (mkseg start «end» nor) l).1)).1),
           (segmentLoop rest (_seg2 (mkseg start «end» nor) l).2
              (newmap.dropLast ++ (_seg2 (mkseg start «end» nor) l).1)).2.2) := by
        unfold _segment
        rw [hlast]
        dsimp only
        rw [if_pos (show (mkseg start «end» nor).range.start < l.range.«end» from hice)]
      rw [heq]
      have hspec := seg2_spec (mkseg start «end» nor) l hmnd hlnd hice
        (by show l.range.start < (mkseg start «end» nor).range.«end»
            have := hstart l hlmem
            show l.range.start < «end»
            omega)
      generalize hprdef : _seg2 (mkseg start «end» nor) l = pr at hspec heq ⊢
      obtain ⟨hpush, hpsorted, hm2s, hm2e, hm2or, hcov⟩ := hspec
      have hlstart : l.range.start ≤ start := hstart l hlmem
      have hcrossl : ∀ b ∈ rest, l.range.«end» ≤ b.range.start :=
        fun b hb => hcross l hlmem b hb
      simp only [mkseg] at hm2s hm2e hcov
      -- shared facts for the loop call
      have hsN2 : SegSorted (newmap.dropLast ++ pr.1) := by
        rw [SegSorted, List.pairwise_append]
        refine ⟨hsdrop, hpsorted, fun a ha b hb => ?_⟩
        have h1 := hdropLast a ha
        have h2 := (hpush b hb).2.1
        simp only [mkseg] at h2
        omega
      have hnN2 : NonDeg (newmap.dropLast ++ pr.1) := by
        intro x hx
        rcases List.mem_append.mp hx with hx | hx
        · exact hnN x (hdrop x hx)
        · exact (hpush x hx).2.2.1
      have hleft2 : ∀ x ∈ newmap.dropLast ++ pr.1, x.range.«end» ≤ pr.2.range.start := by
        intro x hx
        rcases List.mem_append.mp hx with hx | hx
        · have h1 := hdropLast x hx
          omega
        · exact (hpush x hx).2.2.2
      have hcross2 : ∀ a ∈ newmap.dropLast ++ pr.1, ∀ b ∈ rest,
          a.range.«end» ≤ b.range.start := by
        intro a ha b hb
        rcases List.mem_append.mp ha with ha | ha
        · exact hcross a (hdrop a ha) b hb
        · have h1 := (hpush a ha).2.2.2
          have h2 := hcrossl b hb
          omega
      have hrE2 : ∀ x ∈ rest, pr.2.range.start < x.range.«end» := by
        intro x hx
        have h1 := hcrossl x hx
        have h2 := hnR x hx
        omega
      have hprov2 : ∀ x ∈ newmap.dropLast ++ pr.1, x ∈ newmap ∨ x.origs = nor ∨
          ∃ y ∈ newmap ++ rest, x.origs = y.origs ∨ x.origs = y.origs ++ nor := by
        intro x hx
        rcases List.mem_append.mp hx with hx | hx
        · exact Or.inl (hdrop x hx)
        · rcases (hpush x hx).1 with h | h | h
          · exact Or.inr (Or.inl h)
          · exact Or.inr (Or.inr ⟨l, List.mem_append_left _ hlmem, Or.inl h⟩)
          · exact Or.inr (Or.inr ⟨l, List.mem_append_left _ hlmem, Or.inr h⟩)
      have hcov2 : ∀ pos : Nat,
          (covered (newmap.dropLast ++ pr.1) pos ∨
            (pr.2.range.start ≤ pos ∧ pos < pr.2.range.«end») ∨ covered rest pos) ↔
          (covered (newmap ++ rest) pos ∨ (start ≤ pos ∧ pos < «end»)) := by
        intro pos
        have h1 := hcov pos
        rw [covered_append newmap.dropLast pr.1 pos, covered_append newmap rest pos]
        rw [show covered newmap pos ↔ covered newmap.dropLast pos ∨
            (l.range.start ≤ pos ∧ pos < l.range.«end») by
          conv_lhs => rw [← hldec]
          rw [covered_append, covered_cons]
          unfold covered
          simp]
        constructor
        · rintro ((h | h) | h | h)
          · exact Or.inl (Or.inl (Or.inl h))
          · rcases h1.mp (Or.inl h) with h2 | h2
            · exact Or.inr h2
            · exact Or.inl (Or.inl (Or.inr h2))
          · rcases h1.mp (Or.inr h) with h2 | h2
            · exact Or.inr h2
            · exact Or.inl (Or.inl (Or.inr h2))
          · exact Or.inl (Or.inr h)
        · rintro ((( h | h) | h) | h)
          · exact Or.inl (Or.inl h)
          · rcases h1.mpr (Or.inr h) with h2 | h2
            · exact Or.inl (Or.inr h2)
            · exact Or.inr (Or.inl h2)
          · exact Or.inr (Or.inr h)
          · rcases h1.mpr (Or.inl h) with h2 | h2
            · exact Or.inl (Or.inr h2)
            · exact Or.inr (Or.inl h2)
      rcases hm2or with ⟨hmor, hke⟩ | ⟨hmor, hsw⟩
      · -- the insertion extends past the iceberg segment
        simp only [mkseg] at hmor hke
        have post := segmentLoop_spec nor rest pr.2 (newmap.dropLast ++ pr.1)
          hsN2 hnN2 hsR hnR hleft2 (by omega) hrE2
          (fun hdg => absurd hdg (by omega)) hcross2 (Or.inl hmor)
        refine segment_finish nor start «end» rest newmap _ pr.2 post ?_ hprov2
          (Or.inl hmor) hcov2
        have h1 := post.mstart
        omega
      · -- the iceberg segment reaches to or past the insertion end
        simp only [mkseg] at hmor hsw
        have post := segmentLoop_spec nor rest pr.2 (newmap.dropLast ++ pr.1)
          hsN2 hnN2 hsR hnR hleft2 (by omega) hrE2
          (fun _ => by
            intro x hx
            have := hcrossl x hx
            omega)
          hcross2
          (Or.inr (fun x hx => by have := hcrossl x hx; omega))
        refine segment_finish nor start «end» rest newmap _ pr.2 post ?_ hprov2
          (Or.inr ⟨l, List.mem_append_left _ hlmem, hmor⟩) hcov2
        have hnoop := segmentLoop_noop rest pr.2 (newmap.dropLast ++ pr.1)
          (fun x hx => by have := hcrossl x hx; omega)
        rw [hnoop]
        show pr.2.range.start ≤ «end»
        omega
    · -- no iceberg: the accumulated map ends at or before the insertion start
      have hleftend : ∀ x ∈ newmap, x.range.«end» ≤ start := by
        intro x hx
        have hx1 : x ∈ newmap.dropLast ++ [l] := by rw [hldec]; exact hx
        rcases List.mem_append.mp hx1 with hx2 | hx2
        · have h1 := hdropLast x hx2
          omega
        · rw [List.mem_singleton] at hx2
          subst hx2
          omega
      have heq : _segment start «end» nor rest newmap =
          ((if (segmentLoop rest (mkseg start «end» nor) newmap).2.1.range.start <
            (segmentLoop rest (mkseg start «end» nor) newmap).2.1.range.«end» then
            (segmentLoop rest (mkseg start «end» nor) newmap).1 ++
              [(segmentLoop rest (mkseg start «end» nor) newmap).2.1]
          else (segmentLoop rest (mkseg start «end» nor) newmap).1),
           (segmentLoop rest (mkseg start «end» nor) newmap).2.2) := by
        unfold _segment
        rw [hlast]
        dsimp only
        rw [if_neg (show ¬(mkseg start «end» nor).range.start < l.range.«end» from hice)]
      rw [heq]
      have post := segmentLoop_spec nor rest (mkseg start «end» nor) newmap
        hsN hnN hsR hnR (fun x hx => hleftend x hx)
        (Nat.le_of_lt hse) (fun x hx => hrE x hx)
        (fun hdg => absurd hdg (by simp [mkseg]; omega)) hcross (Or.inl rfl)
      refine segment_finish nor start «end» rest newmap newmap (mkseg start «end» nor)
        post post.mstart (fun x hx => Or.inl hx) (Or.inl rfl) ?_
      intro pos
      rw [covered_append]
      simp only [mkseg]
      constructor
      · rintro (h | h | h)
        · exact Or.inl (Or.inl h)
        · exact Or.inr h
        · exact Or.inl (Or.inr h)
      · rintro ((h | h) | h)
        · exact Or.inl h
        · exact Or.inr (Or.inr h)
        · exact Or.inr (Or.inl h)

theorem skipBefore_spec (s : Nat) :
    ∀ (rest newmap : List Seg), SegSorted rest → NonDeg rest →
      ∃ taken, rest = taken ++ (skipBefore s rest newmap).2 ∧
        (skipBefore s rest newmap).1 = newmap ++ taken ∧
        (∀ x ∈ taken, x.range.«end» ≤ s) ∧
        (∀ x ∈ (skipBefore s rest newmap).2, s < x.range.«end»)
  | [], newmap, _, _ => ⟨[], by simp [skipBefore], by simp [skipBefore], by simp,
      by simp [skipBefore]⟩
  | i :: rest, newmap, hsR, hnR => by
    have hstep : skipBefore s (i :: rest) newmap =
        (if i.range.«end» ≤ s then skipBefore s rest (newmap ++ [i])
         else (newmap, i :: rest)) := rfl
    rw [hstep]
    by_cases h : i.range.«end» ≤ s
    · rw [if_pos h]
      obtain ⟨taken, h1, h2, h3, h4⟩ := skipBefore_spec s rest (newmap ++ [i])
        (List.pairwise_cons.mp hsR).2 (fun x hx => hnR x (List.mem_cons_of_mem _ hx))
      refine ⟨i :: taken, ?_, ?_, ?_, h4⟩
      · rw [List.cons_append, ← h1]
      · rw [h2, List.append_assoc]
        rfl
      · intro x hx
        rcases List.mem_cons.mp hx with hx | hx
        · subst hx; exact h
        · exact h3 x hx
    · rw [if_neg h]
      refine ⟨[], by simp, by simp, by simp, ?_⟩
      show ∀ x ∈ i :: rest, s < x.range.«end»
      intro x hx
      rcases List.mem_cons.mp hx with hx | hx
      · subst hx; omega
      · have h1 := (List.pairwise_cons.mp hsR).1 x hx
        have h2 := hnR i (by simp)
        have h3 := hnR x (List.mem_cons_of_mem _ hx)
        omega

/-- The state invariant `addmatches` maintains between matches: the
accumulated `newmap` and the unread `rest` are each sorted and
non-degenerate, concatenate in order, and every accumulated segment
starts at or before `bound` (the previous match's end). -/
structure InvP (p : P) (bound : Nat) : Prop where
  sortedN : SegSorted p.newmap
  nondegN : NonDeg p.newmap
  sortedR : SegSorted p.rest
  nondegR : NonDeg p.rest
  cross : ∀ a ∈ p.newmap, ∀ b ∈ p.rest, a.range.«end» ≤ b.range.start
  startle : ∀ x ∈ p.newmap, x.range.start ≤ bound

theorem insertrange_spec (s e : Nat) (set : Str) (p : P) (b : Nat)
    (hinv : InvP p b) (hbs : b ≤ s) (hse : s < e) :
    InvP (_insertrange s e set p) e ∧
    (∀ pos : Nat, covered (_addendranges (_insertrange s e set p)) pos ↔
      (covered (_addendranges p) pos ∨ (s ≤ pos ∧ pos < e))) ∧
    (∀ x ∈ _addendranges (_insertrange s e set p),
      x ∈ _addendranges p ∨
      x.origs = neworigs set ⟨s, e, p.setindex⟩ ∨
      ∃ y ∈ _addendranges p, x.origs = y.origs ∨
        x.origs = y.origs ++ neworigs set ⟨s, e, p.setindex⟩) ∧
    (_insertrange s e set p).setindex = p.setindex := by
  obtain ⟨taken, ht1, ht2, ht3, ht4⟩ := skipBefore_spec s p.rest p.newmap
    hinv.sortedR hinv.nondegR
  have htakensub : ∀ x ∈ taken, x ∈ p.rest := by
    intro x hx
    rw [ht1]
    exact List.mem_append_left _ hx
  have hsksub : ∀ x ∈ (skipBefore s p.rest p.newmap).2, x ∈ p.rest := by
    intro x hx
    rw [ht1]
    exact List.mem_append_right _ hx
  have hrdec : List.Pairwise (fun a b => a.range.«end» ≤ b.range.start)
      (taken ++ (skipBefore s p.rest p.newmap).2) := by
    rw [← ht1]; exact hinv.sortedR
  rw [List.pairwise_append] at hrdec
  have hsN : SegSorted (skipBefore s p.rest p.newmap).1 := by
    rw [ht2, SegSorted, List.pairwise_append]
    exact ⟨hinv.sortedN, hrdec.1, fun a ha b hb => hinv.cross a ha b (htakensub b hb)⟩
  have hnN : NonDeg (skipBefore s p.rest p.newmap).1 := by
    rw [ht2]
    intro x hx
    rcases List.mem_append.mp hx with hx | hx
    · exact hinv.nondegN x hx
    · exact hinv.nondegR x (htakensub x hx)
  have hcross2 : ∀ a ∈ (skipBefore s p.rest p.newmap).1,
      ∀ b2 ∈ (skipBefore s p.rest p.newmap).2, a.range.«end» ≤ b2.range.start := by
    rw [ht2]
    intro a ha b2 hb
    rcases List.mem_append.mp ha with ha | ha
    · exact hinv.cross a ha b2 (hsksub b2 hb)
    · exact hrdec.2.2 a ha b2 hb
  have hstart2 : ∀ x ∈ (skipBefore s p.rest p.newmap).1, x.range.start ≤ s := by
    rw [ht2]
    intro x hx
    rcases List.mem_append.mp hx with hx | hx
    · have := hinv.startle x hx; omega
    · have h1 := ht3 x hx
      have h2 := hinv.nondegR x (htakensub x hx)
      omega
  have post := segment_spec s e (neworigs set ⟨s, e, p.setindex⟩)
    (skipBefore s p.rest p.newmap).2 (skipBefore s p.rest p.newmap).1
    hsN hnN hrdec.2.1 (fun x hx => hinv.nondegR x (hsksub x hx))
    hcross2 hstart2 ht4 hse
  have houtsub : ∀ x ∈ (_insertrange s e set p).rest, x ∈ p.rest :=
    fun x hx => hsksub x (post.suffix.subset hx)
  have hmapeq : (skipBefore s p.rest p.newmap).1 ++ (skipBefore s p.rest p.newmap).2 =
      p.newmap ++ p.rest := by
    rw [ht2, List.append_assoc, ← ht1]
  refine ⟨⟨post.sorted, post.nondeg, ?_, fun x hx => hinv.nondegR x (houtsub x hx),
      post.cross, post.startle⟩, ?_, ?_, rfl⟩
  · show List.Pairwise (fun a b => a.range.«end» ≤ b.range.start) (_insertrange s e set p).rest
    exact List.Pairwise.sublist post.suffix.sublist hrdec.2.1
  · intro pos
    have h1 := post.cover pos
    rw [hmapeq] at h1
    exact h1
  · intro x hx
    have h2 := post.prov
    rw [hmapeq] at h2
    rcases List.mem_append.mp hx with hx | hx
    · rcases h2 x hx with h | h | ⟨y, hy, h⟩
      · rw [ht2] at h
        rcases List.mem_append.mp h with h | h
        · exact Or.inl (List.mem_append_left _ h)
        · exact Or.inl (List.mem_append_right _ (htakensub x h))
      · exact Or.inr (Or.inl h)
      · exact Or.inr (Or.inr ⟨y, hy, h⟩)
    · exact Or.inl (List.mem_append_right _ (houtsub x hx))

/-- A sorted map of non-degenerate segments is strictly ascending and
pairwise non-overlapping. -/
theorem sorted_nondeg_strict (map : List Seg) (hs : SegSorted map) (hn : NonDeg map) :
    Ascending map ∧ NonOverlapping map := by
  constructor
  · exact List.Pairwise.imp_of_mem
      (fun ha _ h => lt_of_lt_of_le (hn _ ha) h) hs
  · exact hs.imp (fun h => Or.inl h)

/-- The initial state `{newmap:[], i:0, setindex:si}` over a sorted
non-degenerate map satisfies the insertion invariant at bound 0. -/
theorem invP_init (map : List Seg) (si : Nat) (hs : SegSorted map) (hn : NonDeg map) :
    InvP { newmap := [], rest := map, setindex := si } 0 :=
  ⟨List.Pairwise.nil, fun _ h => absurd h (List.not_mem_nil _), hs, hn,
   fun _ h => absurd h (List.not_mem_nil _), fun _ h => absurd h (List.not_mem_nil _)⟩

/-- Flattening an invariant state gives a sorted non-degenerate map. -/
theorem invP_flat (p : P) (b : Nat) (h : InvP p b) :
    SegSorted (_addendranges p) ∧ NonDeg (_addendranges p) := by
  constructor
  · rw [_addendranges, SegSorted, List.pairwise_append]
    exact ⟨h.sortedN, h.sortedR, h.cross⟩
  · intro x hx
    rcases List.mem_append.mp hx with hx | hx
    · exact h.nondegN x hx
    · exact h.nondegR x hx

/-- `p.setindex` is not read by any invariant field. -/
theorem invP_setindex (p : P) (b k : Nat) (h : InvP p b) :
    InvP { p with setindex := k } b :=
  ⟨h.sortedN, h.nondegN, h.sortedR, h.nondegR, h.cross, h.startle⟩

theorem origsRanked_mono (rk : Str → Nat) (b b' : Nat) (map : List Seg)
    (hb : b ≤ b') (h : OrigsRanked rk b map) : OrigsRanked rk b' map :=
  fun s hs => ⟨(h s hs).1, fun o ho => le_trans ((h s hs).2 o ho) hb⟩

/-- One insertion preserves rank order of every origin list when the new
set name ranks at least as high as everything already stored. -/
theorem ranked_insert (rk : Str → Nat) (bnd : Nat) (set : Str) (s e : Nat) (p : P)
    (b : Nat) (hinv : InvP p b) (hbs : b ≤ s) (hse : s < e)
    (hrk : OrigsRanked rk bnd (_addendranges p)) (hbr : bnd ≤ rk set) :
    OrigsRanked rk (rk set) (_addendranges (_insertrange s e set p)) := by
  intro x hx
  rcases (insertrange_spec s e set p b hinv hbs hse).2.2.1 x hx with
    h | h | ⟨y, hy, h | h⟩
  · exact ⟨(hrk x h).1, fun o ho => le_trans ((hrk x h).2 o ho) hbr⟩
  · rw [h]
    refine ⟨List.pairwise_singleton _ _, ?_⟩
    intro o ho
    rw [neworigs, List.mem_singleton] at ho
    rw [ho]
  · rw [h]
    exact ⟨(hrk y hy).1, fun o ho => le_trans ((hrk y hy).2 o ho) hbr⟩
  · rw [h]
    constructor
    · rw [List.pairwise_append]
      refine ⟨(hrk y hy).1, List.pairwise_singleton _ _, ?_⟩
      intro a ha c hc
      rw [neworigs, List.mem_singleton] at hc
      rw [hc]
      exact le_trans ((hrk y hy).2 a ha) hbr
    · intro o ho
      rcases List.mem_append.mp ho with ho | ho
      · exact le_trans ((hrk y hy).2 o ho) hbr
      · rw [neworigs, List.mem_singleton] at ho
        rw [ho]

/-- Invariant, coverage and rank facts for the whole match loop of
`addmatches`. -/
theorem addmatchesLoop_spec (setname : Str) (rk : Str → Nat) :
    ∀ (ms : List Range) (p : P) (b bnd : Nat),
    InvP p b →
    (∀ mt ∈ ms, mt.start < mt.«end») →
    List.Pairwise (fun a c => a.«end» ≤ c.start) ms →
    (∀ mt ∈ ms, b ≤ mt.start) →
    OrigsRanked rk bnd (_addendranges p) →
    bnd ≤ rk setname →
    ∃ b2, b ≤ b2 ∧ InvP (addmatchesLoop setname ms p) b2 ∧
      (∀ pos, covered (_addendranges (addmatchesLoop setname ms p)) pos ↔
        (covered (_addendranges p) pos ∨ ∃ mt ∈ ms, mt.start ≤ pos ∧ pos < mt.«end»)) ∧
      OrigsRanked rk (rk setname) (_addendranges (addmatchesLoop setname ms p)) := by
  intro ms
  induction ms with
  | nil =>
    intro p b bnd hinv _ _ _ hrk hbr
    refine ⟨b, le_rfl, hinv, ?_, origsRanked_mono rk bnd (rk setname) _ hbr hrk⟩
    intro pos
    simp [addmatchesLoop]
  | cons mt ms ih =>
    intro p b bnd hinv hnd hord hge hrk hbr
    have hs : b ≤ mt.start := hge mt (List.mem_cons_self _ _)
    have hse : mt.start < mt.«end» := hnd mt (List.mem_cons_self _ _)
    have hspec := insertrange_spec mt.start mt.«end» setname p b hinv hs hse
    have hrk1 := ranked_insert rk bnd setname mt.start mt.«end» p b hinv hs hse hrk hbr
    set p1 := _insertrange mt.start mt.«end» setname p with hp1
    have hstep : addmatchesLoop setname (mt :: ms) p =
        addmatchesLoop setname ms { p1 with setindex := p1.setindex + 1 } := rfl
    rw [hstep]
    have hinv1 : InvP { p1 with setindex := p1.setindex + 1 } mt.«end» :=
      invP_setindex p1 mt.«end» _ hspec.1
    obtain ⟨b2, hb2, hinv2, hcov2, hrk2⟩ := ih { p1 with setindex := p1.setindex + 1 }
      mt.«end» (rk setname) hinv1
      (fun x hx => hnd x (List.mem_cons_of_mem _ hx))
      (List.Pairwise.of_cons hord)
      (fun x hx => List.rel_of_pairwise_cons hord hx)
      hrk1 le_rfl
    refine ⟨b2, le_trans (le_trans hs (le_of_lt hse)) hb2, hinv2, ?_, hrk2⟩
    intro pos
    rw [hcov2 pos]
    have hc1 : covered (_addendranges { p1 with setindex := p1.setindex + 1 }) pos ↔
        (covered (_addendranges p) pos ∨ (mt.start ≤ pos ∧ pos < mt.«end»)) :=
      hspec.2.1 pos
    rw [hc1]
    constructor
    · rintro ((h | h) | ⟨m, hm, hmp⟩)
      · exact Or.inl h
      · exact Or.inr ⟨mt, List.mem_cons_self _ _, h⟩
      · exact Or.inr ⟨m, List.mem_cons_of_mem _ hm, hmp⟩
    · rintro (h | ⟨m, hm, hmp⟩)
      · exact Or.inl (Or.inl h)
      · rcases List.mem_cons.mp hm with rfl | hm
        · exact Or.inl (Or.inr hmp)
        · exact Or.inr ⟨m, hm, hmp⟩

/-- `addmatches` over a sorted non-degenerate map: the result is sorted
and non-degenerate, covers exactly the old positions plus the matches,
and every origin list stays rank-ordered with the new name ranked last. -/
theorem addmatches_spec («matches» : List Range) (setname : Str) (map : List Seg)
    (rk : Str → Nat) (bnd : Nat)
    (hs : SegSorted map) (hn : NonDeg map)
    (hnd : ∀ mt ∈ «matches», mt.start < mt.«end»)
    (hord : List.Pairwise (fun a c => a.«end» ≤ c.start) «matches»)
    (hrk : OrigsRanked rk bnd map) (hbr : bnd ≤ rk setname) :
    SegSorted (addmatches «matches» setname map) ∧
    NonDeg (addmatches «matches» setname map) ∧
    (∀ pos, covered (addmatches «matches» setname map) pos ↔
      (covered map pos ∨ ∃ mt ∈ «matches», mt.start ≤ pos ∧ pos < mt.«end»)) ∧
    OrigsRanked rk (rk setname) (addmatches «matches» setname map) := by
  obtain ⟨b2, _, hinv2, hcov2, hrk2⟩ := addmatchesLoop_spec setname rk «matches»
    { newmap := [], rest := map, setindex := 0 } 0 bnd
    (invP_init map 0 hs hn) hnd hord (fun _ _ => Nat.zero_le _) hrk hbr
  exact ⟨(invP_flat _ b2 hinv2).1, (invP_flat _ b2 hinv2).2,
    fun pos => hcov2 pos, hrk2⟩

/-- `addrange` with distinct endpoints: the range is normalized and
merged; same conclusions as for `addmatches`. -/
theorem addrange_spec (r : Range) (setname : Str) (map : List Seg)
    (rk : Str → Nat) (bnd : Nat)
    (hs : SegSorted map) (hn : NonDeg map) (hne : r.start ≠ r.«end»)
    (hrk : OrigsRanked rk bnd map) (hbr : bnd ≤ rk setname) :
    SegSorted (addrange r setname map) ∧ NonDeg (addrange r setname map) ∧
    (∀ pos, covered (addrange r setname map) pos ↔
      (covered map pos ∨ (min r.start r.«end» ≤ pos ∧ pos < max r.start r.«end»))) ∧
    OrigsRanked rk (rk setname) (addrange r setname map) := by
  have hinv := invP_init map 0 hs hn
  rcases Nat.lt_or_ge r.«end» r.start with hlt | hge
  · have heq : addrange r setname map =
        _addendranges (_insertrange r.«end» r.start setname
          { newmap := [], rest := map, setindex := 0 }) := by
      simp only [addrange]
      rw [if_pos hlt]
    have hmin : min r.start r.«end» = r.«end» := min_eq_right (le_of_lt hlt)
    have hmax : max r.start r.«end» = r.start := max_eq_left (le_of_lt hlt)
    have hspec := insertrange_spec r.«end» r.start setname _ 0 hinv (Nat.zero_le _) hlt
    have hrnk := ranked_insert rk bnd setname r.«end» r.start _ 0 hinv
      (Nat.zero_le _) hlt hrk hbr
    rw [heq, hmin, hmax]
    exact ⟨(invP_flat _ _ hspec.1).1, (invP_flat _ _ hspec.1).2,
      fun pos => hspec.2.1 pos, hrnk⟩
  · have hlt2 : r.start < r.«end» := lt_of_le_of_ne hge hne
    have heq : addrange r setname map =
        _addendranges (_insertrange r.start r.«end» setname
          { newmap := [], rest := map, setindex := 0 }) := by
      simp only [addrange]
      rw [if_neg (not_lt.mpr hge)]
    have hmin : min r.start r.«end» = r.start := min_eq_left hge
    have hmax : max r.start r.«end» = r.«end» := max_eq_right hge
    have hspec := insertrange_spec r.start r.«end» setname _ 0 hinv (Nat.zero_le _) hlt2
    have hrnk := ranked_insert rk bnd setname r.start r.«end» _ 0 hinv
      (Nat.zero_le _) hlt2 hrk hbr
    rw [heq, hmin, hmax]
    exact ⟨(invP_flat _ _ hspec.1).1, (invP_flat _ _ hspec.1).2,
      fun pos => hspec.2.1 pos, hrnk⟩

/-- One well-formed insertion, either kind. -/
theorem applyIns_spec (rk : Str → Nat) (op : Ins) (map : List Seg) (bnd : Nat)
    (hs : SegSorted map) (hn : NonDeg map) (hwf : InsWF op)
    (hrk : OrigsRanked rk bnd map) (hbr : bnd ≤ rk (insName op)) :
    SegSorted (applyIns map op) ∧ NonDeg (applyIns map op) ∧
    (∀ pos, covered (applyIns map op) pos ↔ (covered map pos ∨ insCovers pos op)) ∧
    OrigsRanked rk (rk (insName op)) (applyIns map op) := by
  cases op with
  | rng r n => exact addrange_spec r n map rk bnd hs hn hwf hrk hbr
  | mts ms n => exact addmatches_spec ms n map rk bnd hs hn hwf.1 hwf.2 hrk hbr

/-- A whole sequence of well-formed insertions, folded left over a map,
with ranks non-decreasing along the sequence. -/
theorem foldl_ins_spec (rk : Str → Nat) :
    ∀ (ops : List Ins) (map : List Seg) (bnd : Nat),
    SegSorted map → NonDeg map → OrigsRanked rk bnd map →
    (∀ op ∈ ops, InsWF op) →
    (∀ op ∈ ops, bnd ≤ rk (insName op)) →
    List.Pairwise (fun a c => rk (insName a) ≤ rk (insName c)) ops →
    SegSorted (List.foldl applyIns map ops) ∧ NonDeg (List.foldl applyIns map ops) ∧
    (∀ pos, covered (List.foldl applyIns map ops) pos ↔
      (covered map pos ∨ ∃ op ∈ ops, insCovers pos op)) ∧
    OrigsRanked rk (lastRank rk bnd ops) (List.foldl applyIns map ops) := by
  intro ops
  induction ops with
  | nil =>
    intro map bnd hs hn hrk _ _ _
    refine ⟨hs, hn, ?_, hrk⟩
    intro pos
    simp
  | cons op ops ih =>
    intro map bnd hs hn hrk hwf hge hord
    obtain ⟨hs1, hn1, hcov1, hrk1⟩ := applyIns_spec rk op map bnd hs hn
      (hwf op (List.mem_cons_self _ _)) hrk (hge op (List.mem_cons_self _ _))
    have hstep : List.foldl applyIns map (op :: ops) =
        List.foldl applyIns (applyIns map op) ops := rfl
    rw [hstep]
    obtain ⟨hs2, hn2, hcov2, hrk2⟩ := ih (applyIns map op) (rk (insName op)) hs1 hn1 hrk1
      (fun x hx => hwf x (List.mem_cons_of_mem _ hx))
      (fun x hx => List.rel_of_pairwise_cons hord hx)
      (List.Pairwise.of_cons hord)
    refine ⟨hs2, hn2, ?_, hrk2⟩
    intro pos
    rw [hcov2 pos, hcov1 pos]
    constructor
    · rintro ((h | h) | ⟨x, hx, hxp⟩)
      · exact Or.inl h
      · exact Or.inr ⟨op, List.mem_cons_self _ _, h⟩
      · exact Or.inr ⟨x, List.mem_cons_of_mem _ hx, hxp⟩
    · rintro (h | ⟨x, hx, hxp⟩)
      · exact Or.inl (Or.inl h)
      · rcases List.mem_cons.mp hx with rfl | hx
        · exact Or.inl (Or.inr hxp)
        · exact Or.inr ⟨x, hx, hxp⟩

/-- The matcher pass is the fold of the matcher entries in registry
order. -/
theorem buildmatchesmap_eq (defs : Registry) :
    ∀ map, buildmatchesmap defs map =
      List.foldl applyIns map ((defs.filter isRegexEntry).map entryIns) := by
  induction defs with
  | nil => intro map; rfl
  | cons e defs ih =>
    intro map
    obtain ⟨cls, pd⟩ := e
    cases pd with
    | regex ms =>
      have h1 : buildmatchesmap ((cls, PDef.regex ms) :: defs) map =
          buildmatchesmap defs (addmatches ms cls map) := rfl
      have h2 : List.filter isRegexEntry ((cls, PDef.regex ms) :: defs) =
          (cls, PDef.regex ms) :: List.filter isRegexEntry defs := by
        simp [List.filter_cons, isRegexEntry]
      rw [h1, ih, h2]
      rfl
    | rng r =>
      have h1 : buildmatchesmap ((cls, PDef.rng r) :: defs) map =
          buildmatchesmap defs map := rfl
      have h2 : List.filter isRegexEntry ((cls, PDef.rng r) :: defs) =
          List.filter isRegexEntry defs := by
        simp [List.filter_cons, isRegexEntry]
      rw [h1, ih, h2]

/-- The range pass is the fold of the range entries in registry order. -/
theorem buildrangesmap_eq (defs : Registry) :
    ∀ map, buildrangesmap defs map =
      List.foldl applyIns map ((defs.filter (fun e => ! isRegexEntry e)).map entryIns) := by
  induction defs with
  | nil => intro map; rfl
  | cons e defs ih =>
    intro map
    obtain ⟨cls, pd⟩ := e
    cases pd with
    | regex ms =>
      have h1 : buildrangesmap ((cls, PDef.regex ms) :: defs) map =
          buildrangesmap defs map := rfl
      have h2 : List.filter (fun e => ! isRegexEntry e) ((cls, PDef.regex ms) :: defs) =
          List.filter (fun e => ! isRegexEntry e) defs := by
        simp [List.filter_cons, isRegexEntry]
      rw [h1, ih, h2]
    | rng r =>
      have h1 : buildrangesmap ((cls, PDef.rng r) :: defs) map =
          buildrangesmap defs (addrange r cls map) := rfl
      have h2 : List.filter (fun e => ! isRegexEntry e) ((cls, PDef.rng r) :: defs) =
          (cls, PDef.rng r) :: List.filter (fun e => ! isRegexEntry e) defs := by
        simp [List.filter_cons, isRegexEntry]
      rw [h1, ih, h2]
      rfl

/-- Default-mode `buildmap` is the single fold over the registry
reordered matchers-first. -/
theorem buildmap_true_eq (defs : Registry) (map : List Seg) :
    buildmap defs map true =
      List.foldl applyIns map
        ((defs.filter isRegexEntry ++
          defs.filter (fun e => ! isRegexEntry e)).map entryIns) := by
  rw [List.map_append, List.foldl_append]
  show buildrangesmap defs (buildmatchesmap defs map) = _
  rw [buildmatchesmap_eq defs map, buildrangesmap_eq defs _]

/-! ## Position-query lemmas (claim C9)

The bisection of `next` runs on JavaScript doubles; every value it
manipulates is `map.length / 2^k`, exactly representable for any
realistic map, so the loop is embedded over exact rationals. -/

theorem startAt_get (map : List Seg) (k : Nat) (h : k < map.length) :
    startAt map k = (map.get ⟨k, h⟩).range.start := by
  rw [startAt, List.get?_eq_get h]
  rfl

theorem endAt_get (map : List Seg) (k : Nat) (h : k < map.length) :
    endAt map k = (map.get ⟨k, h⟩).range.«end» := by
  rw [endAt, List.get?_eq_get h]
  rfl

theorem sorted_end_le_start (map : List Seg) (hs : SegSorted map) (a b : Nat)
    (hab : a < b) (hb : b < map.length) :
    endAt map a ≤ startAt map b := by
  have ha : a < map.length := lt_trans hab hb
  rw [endAt_get map a ha, startAt_get map b hb]
  exact List.pairwise_iff_get.mp hs ⟨a, ha⟩ ⟨b, hb⟩ hab

theorem nondeg_start_lt_end (map : List Seg) (hn : NonDeg map) (k : Nat)
    (h : k < map.length) : startAt map k < endAt map k := by
  rw [startAt_get map k h, endAt_get map k h]
  exact hn _ (map.get_mem k h)

theorem endAt_mono (map : List Seg) (hs : SegSorted map) (hn : NonDeg map)
    (a b : Nat) (hab : a ≤ b) (hb : b < map.length) :
    endAt map a ≤ endAt map b := by
  rcases Nat.eq_or_lt_of_le hab with rfl | h
  · exact le_rfl
  · exact le_trans (sorted_end_le_start map hs a b h hb)
      (le_of_lt (nondeg_start_lt_end map hn b hb))

/-- The trailing linear scan of `next`: starting at or at most one below
the target index `T` (the least index whose end exceeds `pos`, or
`map.length`), it stops exactly at `T`. -/
theorem nextFixup_spec (pos : Nat) (map : List Seg) (T : Nat)
    (hTle : T ≤ map.length)
    (hTw : T < map.length → pos < endAt map T)
    (hTmin : ∀ k, k < T → endAt map k ≤ pos) :
    ∀ (fuel i1 : Nat), i1 ≤ T → T - i1 ≤ fuel → nextFixup pos map fuel i1 = T := by
  intro fuel
  induction fuel with
  | zero =>
    intro i1 h1 h2
    have h3 : i1 = T := by omega
    rw [h3]
    rfl
  | succ fuel ih =>
    intro i1 h1 h2
    have hstep : nextFixup pos map (fuel + 1) i1 =
        if i1 < map.length then
          if endAt map i1 ≤ pos then nextFixup pos map fuel (i1 + 1) else i1
        else i1 := rfl
    rw [hstep]
    rcases Nat.eq_or_lt_of_le h1 with rfl | hlt
    · by_cases hl : i1 < map.length
      · rw [if_pos hl, if_neg (by have := hTw hl; omega)]
      · rw [if_neg hl]
    · have hl : i1 < map.length := lt_of_lt_of_le hlt hTle
      rw [if_pos hl, if_pos (hTmin i1 hlt)]
      exact ih (i1 + 1) (by omega) (by omega)

/-- The bisection invariant of `next`: a loop state `(i, j)` with
`|i - (T - 1/2)| ≤ j` and `j ≤ i ≤ n - j` converges onto the open
interval `(T-1, T)` by the time `Math.round(j)` reaches 0, where `T` is
the least index whose segment end exceeds `pos`. -/
theorem binLoop_spec (pos : Nat) (map : List Seg) (T : Nat)
    (hs : SegSorted map) (hn : NonDeg map)
    (hT1 : 1 ≤ T) (hTn : T + 1 ≤ map.length)
    (hTw : pos < endAt map T)
    (hTmin : ∀ k, k < T → endAt map k ≤ pos) :
    ∀ (fuel : Nat) (i j : ℚ), 0 < j →
      |i - ((T : ℚ) - 1/2)| ≤ j → j ≤ i → i ≤ (map.length : ℚ) - j →
      j * 4 < 2 ^ fuel →
      |binLoop pos map fuel i j - ((T : ℚ) - 1/2)| < 1/2 := by
  intro fuel
  induction fuel with
  | zero =>
    intro i j hj hinv _ _ hfj
    have hb : binLoop pos map 0 i j = i := rfl
    rw [hb, pow_zero] at *
    calc |i - ((T : ℚ) - 1/2)| ≤ j := hinv
      _ < 1/2 := by linarith
  | succ fuel ih =>
    intro i j hj hinv hji hij hfj
    have hstep : binLoop pos map (fuel + 1) i j =
        if jsRound j = 0 then i
        else if endAt map (jsRound i).toNat ≤ pos then
          binLoop pos map fuel (i + j / 2) (j / 2)
        else binLoop pos map fuel (i - j / 2) (j / 2) := rfl
    rw [hstep]
    by_cases h0 : jsRound j = 0
    · rw [if_pos h0]
      have h0' : ⌊j + 1/2⌋ = 0 := h0
      have hj12 : j + 1/2 < 1 := (Set.mem_Ico.mp (Int.floor_eq_zero_iff.mp h0')).2
      calc |i - ((T : ℚ) - 1/2)| ≤ j := hinv
        _ < 1/2 := by linarith
    · rw [if_neg h0]
      have hj2 : (1 : ℚ)/2 ≤ j := by
        by_contra hc
        push_neg at hc
        apply h0
        show ⌊j + 1/2⌋ = 0
        rw [Int.floor_eq_zero_iff]
        rw [Set.mem_Ico]
        constructor
        · linarith
        · linarith
      have habs := abs_le.mp hinv
      have hfl : ((jsRound i : ℤ) : ℚ) ≤ i + 1/2 := Int.floor_le _
      have hfu : i + 1/2 < ((jsRound i : ℤ) : ℚ) + 1 := Int.lt_floor_add_one _
      have hge0 : 0 ≤ jsRound i := by
        apply Int.floor_nonneg.mpr
        linarith
      have hpow : (2 : ℚ) ^ (fuel + 1) = 2 ^ fuel * 2 := pow_succ 2 fuel
      have hrlt : (jsRound i).toNat < map.length := by
        rcases le_or_lt 1 j with h1 | h1
        · have hq : ((jsRound i : ℤ) : ℚ) < (map.length : ℚ) := by linarith
          have hz : jsRound i < (map.length : ℤ) := by exact_mod_cast hq
          omega
        · have hq : ((jsRound i : ℤ) : ℚ) < (T : ℚ) + 1 := by linarith [habs.2]
          have hz : jsRound i < (T : ℤ) + 1 := by exact_mod_cast hq
          omega
      by_cases hbr : endAt map (jsRound i).toNat ≤ pos
      · rw [if_pos hbr]
        have hrT : (jsRound i).toNat < T := by
          by_contra hc
          push_neg at hc
          have h1 := endAt_mono map hs hn T (jsRound i).toNat hc hrlt
          omega
        have hiT : i < (T : ℚ) - 1/2 := by
          have h1 : jsRound i ≤ (T : ℤ) - 1 := by omega
          have h2 : ((jsRound i : ℤ) : ℚ) ≤ (T : ℚ) - 1 := by exact_mod_cast h1
          linarith
        apply ih (i + j / 2) (j / 2) (by linarith) ?_ (by linarith) (by linarith)
          (by linarith)
        rw [abs_le]
        constructor
        · linarith [habs.1]
        · linarith
      · rw [if_neg hbr]
        push_neg at hbr
        have hrT : T ≤ (jsRound i).toNat := by
          by_contra hc
          push_neg at hc
          have h1 := hTmin (jsRound i).toNat hc
          omega
        have hiT : (T : ℚ) - 1/2 ≤ i := by
          have h1 : (T : ℤ) ≤ jsRound i := by omega
          have h2 : (T : ℚ) ≤ ((jsRound i : ℤ) : ℚ) := by exact_mod_cast h1
          linarith
        apply ih (i - j / 2) (j / 2) (by linarith) ?_ (by linarith) (by linarith)
          (by linarith)
        rw [abs_le]
        constructor
        · linarith
        · linarith [habs.2]

/-- `next` returns the least index whose segment end exceeds `pos`, or
`map.length` when every segment ends at or before `pos`. -/
theorem next_spec (map : List Seg) (pos T : Nat)
    (hs : SegSorted map) (hn : NonDeg map) (hne : map.length ≠ 0)
    (hTle : T ≤ map.length)
    (hTw : T < map.length → pos < endAt map T)
    (hTmin : ∀ k, k < T → endAt map k ≤ pos) :
    next pos map = (T : ℤ) := by
  have hstep : next pos map =
      if map.length = 0 then -1
      else if pos < endAt map 0 then (nextFixup pos map map.length 0 : ℤ)
      else
        (nextFixup pos map map.length
          (if pos < startAt map (map.length - 1) then
            (jsRound (binLoop pos map (map.length + 1)
              ((map.length : ℚ) / 2) ((map.length : ℚ) / 2))).toNat
          else map.length - 1) : ℤ) := rfl
  rw [hstep, if_neg hne]
  have hlen : 0 < map.length := Nat.pos_of_ne_zero hne
  by_cases h0 : pos < endAt map 0
  · rw [if_pos h0]
    rw [nextFixup_spec pos map T hTle hTw hTmin map.length 0 (Nat.zero_le _) (by omega)]
  · rw [if_neg h0]
    push_neg at h0
    have hT1 : 1 ≤ T := by
      by_contra hc
      push_neg at hc
      have hT0 : T = 0 := by omega
      have h1 := hTw (by omega)
      rw [hT0] at h1
      omega
    by_cases hbin : pos < startAt map (map.length - 1)
    · rw [if_pos hbin]
      have hTn : T + 1 ≤ map.length := by
        by_contra hc
        push_neg at hc
        have h1 := hTmin (map.length - 1) (by omega)
        have h2 := nondeg_start_lt_end map hn (map.length - 1) (by omega)
        omega
      have hlen2 : 2 ≤ map.length := by omega
      have hq2 : (2 : ℚ) ≤ (map.length : ℚ) := by exact_mod_cast hlen2
      have hTq : (1 : ℚ) ≤ (T : ℚ) := by exact_mod_cast hT1
      have hTq2 : (T : ℚ) + 1 ≤ (map.length : ℚ) := by exact_mod_cast hTn
      have hres := binLoop_spec pos map T hs hn hT1 hTn (hTw (by omega)) hTmin
        (map.length + 1) ((map.length : ℚ) / 2) ((map.length : ℚ) / 2)
        (by linarith)
        (by
          rw [abs_le]
          constructor
          · linarith
          · linarith)
        le_rfl
        (by linarith)
        (by
          have h1 : (map.length : ℚ) < 2 ^ map.length := by
            exact_mod_cast Nat.lt_two_pow map.length
          have h2 : (2 : ℚ) ^ (map.length + 1) = 2 ^ map.length * 2 :=
            pow_succ 2 map.length
          linarith)
      set li := binLoop pos map (map.length + 1)
        ((map.length : ℚ) / 2) ((map.length : ℚ) / 2) with hli
      have habs := abs_lt.mp hres
      have hlb : (T : ℤ) - 1 ≤ jsRound li := by
        apply Int.le_floor.mpr
        push_cast
        linarith [habs.1]
      have hub : jsRound li ≤ (T : ℤ) := by
        have h1 : jsRound li < (T : ℤ) + 1 := by
          apply Int.floor_lt.mpr
          push_cast
          linarith [habs.2]
        omega
      rw [nextFixup_spec pos map T hTle hTw hTmin map.length (jsRound li).toNat
        (by omega) (by omega)]
    · rw [if_neg hbin]
      push_neg at hbin
      have hT2 : map.length - 1 ≤ T := by
        by_contra hc
        push_neg at hc
        have h1 := hTw (by omega)
        have h2 := sorted_end_le_start map hs T (map.length - 1) (by omega) (by omega)
        omega
      rw [nextFixup_spec pos map T hTle hTw hTmin map.length (map.length - 1)
        hT2 (by omega)]

/-! ## Renderer lemmas (claim C8) -/
theorem jsReplaceAllChar_ne_nil (c : Char) (s : Str) (text : Str)
    (hs : s ≠ []) (ht : text ≠ []) : jsReplaceAllChar c s text ≠ [] := by
  rw [jsReplaceAllChar]
  intro h
  rw [List.flatMap_eq_nil_iff] at h
  obtain ⟨x, hx⟩ := List.exists_mem_of_ne_nil text ht
  have h2 := h x hx
  by_cases hxc : x = c
  · rw [if_pos hxc] at h2
    exact hs h2
  · rw [if_neg hxc] at h2
    exact List.cons_ne_nil _ _ h2

theorem raw2HTML_ne_nil (text : Str) (ht : text ≠ []) : raw2HTML text ≠ [] := by
  apply jsReplaceAllChar_ne_nil _ _ _ (by decide)
  apply jsReplaceAllChar_ne_nil _ _ _ (by decide)
  exact jsReplaceAllChar_ne_nil _ _ _ (by decide) ht

theorem patchPiece_at (a b : Str) :
    patchPiece (a ++ ' ' :: b) a.length = a ++ 'R' :: b := by
  show (a ++ ' ' :: b).take a.length ++ ['R'] ++ (a ++ ' ' :: b).drop (a.length + 1) =
    a ++ 'R' :: b
  rw [List.take_left, List.append_cons a ' ' b, List.drop_left' (by simp),
    List.append_assoc]
  rfl

theorem htmladd_of_ne (html : List Str) (piece : Str) (h : piece ≠ []) :
    htmladd html piece = html ++ [piece] := by
  unfold htmladd
  rw [if_neg h]

theorem tagstart_single (text cls : Str) (L : Nat) :
    _tagstart text none (some [(cls, ({} : DefEntry))]) ⟨0, L⟩
      ⟨cls, ⟨0, L, 0⟩⟩ 0 0 [] =
      (("<mark class=\"".toList ++ cls ++ (" L ".toList)) ++ ' ' :: ("\">".toList),
       [(cls, ⟨("<mark class=\"".toList ++ cls ++ (" L ".toList)).length, 0⟩)]) := by
  have hlook : lookupDef [(cls, ({} : DefEntry))] cls = {} := by
    rw [lookupDef, List.lookup_cons_self]
    rfl
  have hvne : (cls ++ (" L".toList) : Str) ≠ [] := by simp
  simp [_tagstart, _tag, _addattrs, assocSet, hlook, hvne]
  omega

theorem layersstart_single (text cls : Str) (L : Nat) :
    _layersstart text none (some [(cls, ({} : DefEntry))]) none
      { range := ⟨0, L⟩, origs := [⟨cls, ⟨0, L, 0⟩⟩] } 0 [] =
      (("<mark class=\"".toList ++ cls ++ (" L ".toList)) ++ ' ' :: ("\">".toList),
       [(cls, ⟨("<mark class=\"".toList ++ cls ++ (" L ".toList)).length, 0⟩)]) := by
  have h1 : _layersstart text none (some [(cls, ({} : DefEntry))]) none
      { range := ⟨0, L⟩, origs := [⟨cls, ⟨0, L, 0⟩⟩] } 0 [] =
      ([] ++ (_tagstart text none (some [(cls, ({} : DefEntry))]) ⟨0, L⟩
        ⟨cls, ⟨0, L, 0⟩⟩ 0 0 []).1,
       (_tagstart text none (some [(cls, ({} : DefEntry))]) ⟨0, L⟩
        ⟨cls, ⟨0, L, 0⟩⟩ 0 0 []).2) := rfl
  rw [h1, tagstart_single]
  rfl

theorem layersend_single (cls : Str) (L : Nat) :
    _layersend none (some [(cls, ({} : DefEntry))])
      { range := ⟨0, L⟩, origs := [⟨cls, ⟨0, L, 0⟩⟩] } none =
      ("</mark>".toList) := by
  have hlook : lookupDef [(cls, ({} : DefEntry))] cls = {} := by
    rw [lookupDef, List.lookup_cons_self]
    rfl
  have htag : _tag none (some [(cls, ({} : DefEntry))]) ⟨cls, ⟨0, L, 0⟩⟩ true =
      ("mark".toList) := by
    simp [_tag, hlook]
  have h1 : _layersend none (some [(cls, ({} : DefEntry))])
      { range := ⟨0, L⟩, origs := [⟨cls, ⟨0, L, 0⟩⟩] } none =
      [] ++ _tagend none (some [(cls, ({} : DefEntry))]) ⟨cls, ⟨0, L, 0⟩⟩ := rfl
  have h2 : _tagend none (some [(cls, ({} : DefEntry))]) ⟨cls, ⟨0, L, 0⟩⟩ =
      (if _tag none (some [(cls, ({} : DefEntry))]) ⟨cls, ⟨0, L, 0⟩⟩ true = [] then []
       else ("</".toList) ++
         (_tag none (some [(cls, ({} : DefEntry))]) ⟨cls, ⟨0, L, 0⟩⟩ true).takeWhile
           jsTagChar ++ [Char.ofNat 62]) := rfl
  rw [h1, List.nil_append, h2, htag]
  rw [if_neg (by decide)]
  decide

theorem setlayerright_patch (cls : Str) (L : Nat) (a b p2 p3 : Str) :
    _setlayerright { range := ⟨0, L⟩, origs := [⟨cls, ⟨0, L, 0⟩⟩] }
      [a ++ ' ' :: b, p2, p3] [(cls, ⟨a.length, 0⟩)] =
      ([a ++ 'R' :: b, p2, p3], []) := by
  have h1 : _setlayerright { range := ⟨0, L⟩, origs := [⟨cls, ⟨0, L, 0⟩⟩] }
      [a ++ ' ' :: b, p2, p3] [(cls, ⟨a.length, 0⟩)] =
      (match List.lookup cls [(cls, (⟨a.length, 0⟩ : StartRec))] with
       | some sr =>
         if (⟨cls, ⟨0, L, 0⟩⟩ : Orig).range.«end» =
             ({ range := ⟨0, L⟩, origs := [⟨cls, ⟨0, L, 0⟩⟩] } : Seg).range.«end» then
           (([a ++ ' ' :: b, p2, p3] : List Str).set sr.pieceindex
             (patchPiece (([a ++ ' ' :: b, p2, p3] : List Str).getD sr.pieceindex []) sr.pos),
            startsErase [(cls, (⟨a.length, 0⟩ : StartRec))] cls)
         else ([a ++ ' ' :: b, p2, p3], [(cls, (⟨a.length, 0⟩ : StartRec))])
       | none => ([a ++ ' ' :: b, p2, p3], [(cls, (⟨a.length, 0⟩ : StartRec))])) := rfl
  rw [h1, List.lookup_cons_self]
  show (if L = L then
      (([a ++ ' ' :: b, p2, p3] : List Str).set 0
        (patchPiece (([a ++ ' ' :: b, p2, p3] : List Str).getD 0 []) a.length),
       startsErase [(cls, (⟨a.length, 0⟩ : StartRec))] cls)
    else ([a ++ ' ' :: b, p2, p3], [(cls, (⟨a.length, 0⟩ : StartRec))])) =
    ([a ++ 'R' :: b, p2, p3], [])
  rw [if_pos rfl,
    show (([a ++ ' ' :: b, p2, p3] : List Str).getD 0 []) = a ++ ' ' :: b from rfl,
    patchPiece_at,
    show startsErase [(cls, (⟨a.length, 0⟩ : StartRec))] cls = [] by simp [startsErase]]
  rfl

theorem markup_single_full (text cls : Str) (ht : text ≠ []) :
    markup text [{ range := ⟨0, text.length⟩, origs := [⟨cls, ⟨0, text.length, 0⟩⟩] }]
      none (some [(cls, ({} : DefEntry))]) =
      ("<mark class=\"".toList ++ cls ++ (" L R\">".toList) ++
        raw2HTML text ++ ("</mark>".toList)) := by
  have hinside : jsSlice text 0 text.length = text := by
    show (text.take text.length).drop 0 = text
    rw [List.drop_zero, List.take_length]
  have hrawne : raw2HTML text ≠ [] := raw2HTML_ne_nil text ht
  have hpne : (("<mark class=\"".toList ++ cls ++ (" L ".toList)) ++
      ' ' :: ("\">".toList) : Str) ≠ [] := by
    simp
  have hloop : markupLoop text none (some [(cls, ({} : DefEntry))])
      [{ range := ⟨0, text.length⟩, origs := [⟨cls, ⟨0, text.length, 0⟩⟩] }] none
      ⟨[], [], [], 0⟩ =
      { html := [("<mark class=\"".toList ++ cls ++ (" L ".toList)) ++ 'R' :: ("\">".toList),
                 raw2HTML text, "</mark>".toList],
        text := [], starts := [], n := text.length } := by
    have hstep : markupLoop text none (some [(cls, ({} : DefEntry))])
        [{ range := ⟨0, text.length⟩, origs := [⟨cls, ⟨0, text.length, 0⟩⟩] }] none
        ⟨[], [], [], 0⟩ =
        (let start := _layersstart text none (some [(cls, ({} : DefEntry))]) none
            { range := ⟨0, text.length⟩, origs := [⟨cls, ⟨0, text.length, 0⟩⟩] } 0 [];
         let insidetext := raw2HTML (jsSlice text 0 text.length);
         let ht2 := if start.1 ≠ [] then
             (htmladd (htmladd (htmladd [] []) start.1) insidetext, ([] : Str))
           else ([], [] ++ insidetext);
         let endtags := _layersend none (some [(cls, ({} : DefEntry))])
            { range := ⟨0, text.length⟩, origs := [⟨cls, ⟨0, text.length, 0⟩⟩] } none;
         let hts := if endtags ≠ [] then
             ((_setlayerright
                 { range := ⟨0, text.length⟩, origs := [⟨cls, ⟨0, text.length, 0⟩⟩] }
                 (if ht2.2 ≠ [] then htmladd ht2.1 (ht2.2 ++ endtags)
                  else htmladd ht2.1 endtags)
                 start.2).1,
              ([] : Str),
              (_setlayerright
                 { range := ⟨0, text.length⟩, origs := [⟨cls, ⟨0, text.length, 0⟩⟩] }
                 (if ht2.2 ≠ [] then htmladd ht2.1 (ht2.2 ++ endtags)
                  else htmladd ht2.1 endtags)
                 start.2).2)
           else (ht2.1, ht2.2, start.2);
         ({ html := hts.1, text := hts.2.1, starts := hts.2.2,
            n := text.length } : MState)) := rfl
    rw [hstep]
    rw [layersstart_single text cls text.length, layersend_single cls text.length, hinside]
    simp only []
    rw [if_pos hpne]
    simp only []
    rw [if_pos (show ("</mark>".toList : Str) ≠ [] by decide)]
    rw [if_neg (show ¬ (([] : Str) ≠ []) from fun h => h rfl)]
    rw [show htmladd ([] : List Str) ([] : Str) = ([] : List Str) from rfl]
    rw [htmladd_of_ne _ _ hpne, List.nil_append]
    rw [htmladd_of_ne _ _ hrawne, List.singleton_append]
    rw [htmladd_of_ne _ _ (show ("</mark>".toList : Str) ≠ [] by decide)]
    rw [show ((("<mark class=\"".toList ++ cls ++ (" L ".toList)) ++ ' ' :: ("\">".toList)) ::
        [raw2HTML text] ++ ["</mark>".toList] : List Str) =
      [("<mark class=\"".toList ++ cls ++ (" L ".toList)) ++ ' ' :: ("\">".toList),
       raw2HTML text, "</mark>".toList] from rfl]
    rw [setlayerright_patch]
  have hmk : markup text
      [{ range := ⟨0, text.length⟩, origs := [⟨cls, ⟨0, text.length, 0⟩⟩] }]
      none (some [(cls, ({} : DefEntry))]) =
      (markupLoop text none (some [(cls, ({} : DefEntry))])
        [{ range := ⟨0, text.length⟩, origs := [⟨cls, ⟨0, text.length, 0⟩⟩] }] none
        ⟨[], [], [], 0⟩).html.foldl (· ++ ·) [] ++
      raw2HTML (text.drop (markupLoop text none (some [(cls, ({} : DefEntry))])
        [{ range := ⟨0, text.length⟩, origs := [⟨cls, ⟨0, text.length, 0⟩⟩] }] none
        ⟨[], [], [], 0⟩).n) := rfl
  rw [hmk, hloop]
  show (([] ++ (("<mark class=\"".toList ++ cls ++ (" L ".toList)) ++ 'R' :: ("\">".toList))
      ++ raw2HTML text) ++ ("</mark>".toList)) ++ raw2HTML (text.drop text.length) = _
  rw [List.drop_length]
  show (([] ++ (("<mark class=\"".toList ++ cls ++ (" L ".toList)) ++ 'R' :: ("\">".toList))
      ++ raw2HTML text) ++ ("</mark>".toList)) ++ [] = _
  simp [List.append_assoc]

theorem raw2HTML_flatMap (text : Str) :
    raw2HTML text = text.flatMap (fun c =>
      if c = '&' then ("&amp;".toList)
      else if c = '>' then ("&gt;".toList)
      else if c = '<' then ("&lt;".toList)
      else [c]) := by
  have hcons : ∀ (d : Char) (s : Str) (x : Char) (xs : Str),
      jsReplaceAllChar d s (x :: xs) =
        (if x = d then s else [x]) ++ jsReplaceAllChar d s xs := by
    intro d s x xs
    rw [jsReplaceAllChar, jsReplaceAllChar, List.flatMap_cons]
  have hdist : ∀ (d : Char) (s l1 l2 : Str),
      jsReplaceAllChar d s (l1 ++ l2) =
        jsReplaceAllChar d s l1 ++ jsReplaceAllChar d s l2 := by
    intro d s l1 l2
    rw [jsReplaceAllChar, jsReplaceAllChar, jsReplaceAllChar, List.flatMap_append]
  have hone : ∀ (d : Char) (s : Str) (x : Char),
      jsReplaceAllChar d s [x] = (if x = d then s else [x]) := by
    intro d s x
    simp [jsReplaceAllChar]
  induction text with
  | nil => rfl
  | cons c cs ih =>
    have hr : ∀ t : Str, raw2HTML t = jsReplaceAllChar '<' ("&lt;".toList)
        (jsReplaceAllChar '>' ("&gt;".toList)
          (jsReplaceAllChar '&' ("&amp;".toList) t)) := fun _ => rfl
    rw [List.flatMap_cons, ← ih, hr, hcons, hdist, hdist, ← hr]
    by_cases h1 : c = '&'
    · subst h1
      rfl
    · rw [if_neg h1, if_neg h1]
      by_cases h2 : c = '>'
      · subst h2
        rfl
      · rw [hone, if_neg h2, if_neg h2]
        by_cases h3 : c = '<'
        · subst h3
          rfl
        · rw [hone, if_neg h3]

/-- The map built by registering one matcher whose sole match covers the
whole (non-empty) text. -/
theorem addmatches_single_full (L : Nat) (cls : Str) (hL : 0 < L) :
    addmatches [⟨0, L⟩] cls [] =
      [{ range := ⟨0, L⟩, origs := [⟨cls, ⟨0, L, 0⟩⟩] }] := by
  have h1 : addmatches [⟨0, L⟩] cls [] =
      (if 0 < L then [] ++ [mkseg 0 L [⟨cls, ⟨0, L, 0⟩⟩]] else []) ++ [] := rfl
  rw [h1, if_pos hL]
  rfl

/-! ## Claim theorems -/

/-- C2: inserting `A=[0,10)` and then `B=[3,6)` in Segment mode yields
exactly the three segments `{[0,3),[A]}`, `{[3,6),[A,B]}` (A's origin
first), `{[6,10),[A]}`, and rendering opens one tag for A before segment
1, opens B's tag at segment 2 with class `B L R`, closes only B after
segment 2, closes A exactly once after segment 3 and never reopens A in
between — witnessed by the exact rendered output. -/
theorem overlap_nesting_three_segments_and_render :
    addrange ⟨3, 6⟩ ("B".toList) (addrange ⟨0, 10⟩ ("A".toList) []) =
      [{ range := ⟨0, 3⟩, origs := [⟨"A".toList, ⟨0, 10, 0⟩⟩] },
       { range := ⟨3, 6⟩, origs := [⟨"A".toList, ⟨0, 10, 0⟩⟩, ⟨"B".toList, ⟨3, 6, 0⟩⟩] },
       { range := ⟨6, 10⟩, origs := [⟨"A".toList, ⟨0, 10, 0⟩⟩] }] ∧
    markup ("abcdefghij".toList)
        (addrange ⟨3, 6⟩ ("B".toList) (addrange ⟨0, 10⟩ ("A".toList) [])) none none =
      ("<mark class=\"A L R\">abc<mark class=\"B L R\">def</mark>ghij</mark>".toList) := by
  constructor
  · decide
  · decide

/-- C5: the code violates the degenerate-inputs-are-dropped rule: a
zero-length range inserted strictly inside an existing segment is not a
no-op — it splits the segment and stores a zero-length segment
`{[3,3),[A,B]}` carrying the combined origins. -/
theorem degenerate_insert_stores_zero_length_segment :
    addrange ⟨3, 3⟩ ("B".toList) (addrange ⟨0, 10⟩ ("A".toList) []) =
      [{ range := ⟨0, 3⟩, origs := [⟨"A".toList, ⟨0, 10, 0⟩⟩] },
       { range := ⟨3, 3⟩, origs := [⟨"A".toList, ⟨0, 10, 0⟩⟩, ⟨"B".toList, ⟨3, 3, 0⟩⟩] },
       { range := ⟨3, 10⟩, origs := [⟨"A".toList, ⟨0, 10, 0⟩⟩] }] ∧
    addrange ⟨3, 3⟩ ("B".toList) (addrange ⟨0, 10⟩ ("A".toList) []) ≠
      addrange ⟨0, 10⟩ ("A".toList) [] := by
  constructor
  · decide
  · decide

/-- C6: the code violates the R-marker rule: `_setlayerright` only runs
when the closing-tag text for a segment is non-empty, so with a
configured empty closing tag (`htmltagend: ''`, as the demo's `input`
pattern uses) the sole origin ends exactly at its segment's end and yet
its opening tag's class keeps the two padding spaces and never receives
the `R` marker. -/
theorem right_marker_skipped_without_closing_tag :
    markup ("ab".toList) (addmatches [⟨0, 2⟩] ("X".toList) []) none
        (some [("X".toList,
                { htmltag := some ("input".toList), htmltagend := some [] })]) =
      ("<input class=\"X L  \">ab".toList) ∧
    'R' ∉ markup ("ab".toList) (addmatches [⟨0, 2⟩] ("X".toList) []) none
        (some [("X".toList,
                { htmltag := some ("input".toList), htmltagend := some [] })]) := by
  constructor
  · decide
  · decide

/-- C10: an out-of-range index is a silent no-op — `replace` returns the
text unchanged whenever `i >= map.length`. -/
theorem replace_out_of_range_is_noop (text : Str) (map : List Seg) (i : Nat)
    (newtext : Str) (h : map.length ≤ i) :
    replace text map i newtext = some text := by
  simp [replace, h]

/-- Witness for `replace_out_of_range_is_noop` at a concrete input. -/
theorem replace_out_of_range_is_noop_witness :
    (addrange ⟨0, 2⟩ ("X".toList) []).length ≤ 5 ∧
      replace ("ab".toList) (addrange ⟨0, 2⟩ ("X".toList) []) 5 ("z".toList) =
        some ("ab".toList) :=
  ⟨by decide, replace_out_of_range_is_noop _ _ _ _ (by decide)⟩

theorem commonPrefixLen_nil_right (eqv : Orig → Orig → Prop) [DecidableRel eqv]
    (as : List Orig) : commonPrefixLen eqv as [] = 0 := by
  cases as <;> rfl

theorem _difdepthGo_spec (seg cs : Seg) :
    ∀ fuel d : Nat, seg.origs.length ≤ d + fuel →
      _difdepthGo seg (some cs) fuel d =
        d + commonPrefixLen origKeyEq (seg.origs.drop d) (cs.origs.drop d) := by
  intro fuel
  induction fuel with
  | zero =>
    intro d h
    rw [Nat.add_zero] at h
    rw [List.drop_eq_nil_of_le h]
    rfl
  | succ fuel ih =>
    intro d h
    have step : _difdepthGo seg (some cs) (fuel + 1) d =
        if d < seg.origs.length then
          if _istagdif seg (some cs) d then d else _difdepthGo seg (some cs) fuel (d + 1)
        else d := rfl
    by_cases hd : d < seg.origs.length
    · rw [List.drop_eq_getElem_cons hd]
      by_cases hc : d < cs.origs.length
      · rw [List.drop_eq_getElem_cons hc]
        by_cases hk : origKeyEq (seg.origs[d]) (cs.origs[d])
        · have hdif : _istagdif seg (some cs) d = false := by
            simp only [_istagdif, Bool.or_eq_false_iff, decide_eq_false_iff_not, not_le,
              not_not]
            refine ⟨⟨hc, ?_⟩, ?_⟩
            · rw [List.getD_eq_getElem _ _ hd, List.getD_eq_getElem _ _ hc]; exact hk.1
            · rw [List.getD_eq_getElem _ _ hd, List.getD_eq_getElem _ _ hc]; exact hk.2
          rw [step, if_pos hd, hdif]
          simp only [Bool.false_eq_true, if_false]
          rw [ih (d + 1) (by omega), commonPrefixLen, if_pos hk]
          omega
        · have hdif : _istagdif seg (some cs) d = true := by
            simp only [_istagdif, Bool.or_eq_true, decide_eq_true_eq]
            rcases Decidable.not_and_iff_or_not.mp hk with hn | hn
            · refine Or.inl (Or.inr ?_)
              rwa [List.getD_eq_getElem _ _ hd, List.getD_eq_getElem _ _ hc]
            · refine Or.inr ?_
              rwa [List.getD_eq_getElem _ _ hd, List.getD_eq_getElem _ _ hc]
          rw [step, if_pos hd, hdif, if_pos rfl, commonPrefixLen, if_neg hk]
          omega
      · have hdif : _istagdif seg (some cs) d = true := by
          simp only [_istagdif, Bool.or_eq_true, decide_eq_true_eq]
          exact Or.inl (Or.inl (by omega))
        rw [step, if_pos hd, hdif, if_pos rfl,
          List.drop_eq_nil_of_le (by omega : cs.origs.length ≤ d),
          commonPrefixLen_nil_right]
        omega
    · rw [step, if_neg hd, List.drop_eq_nil_of_le (by omega : seg.origs.length ≤ d)]
      rfl

/-- C4 (amended): the renderer's open depth is the length of the common
leading prefix of the current and previous segments' origin lists where
two origins agree exactly when they share setname and sequence number —
the stored original range is not compared (`_istagdif` reads only
`setname` and `range.setindex`). -/
theorem difdepth_is_key_prefix_length (seg : Seg) (compareseg : Option Seg) :
    _difdepth seg compareseg =
      commonPrefixLen origKeyEq seg.origs
        (match compareseg with | some cs => cs.origs | none => []) := by
  match compareseg with
  | none =>
    rw [commonPrefixLen_nil_right]
    show _difdepthGo seg none seg.origs.length 0 = 0
    cases hfuel : seg.origs.length with
    | zero => rfl
    | succ fuel =>
      have step : _difdepthGo seg none (fuel + 1) 0 =
          if 0 < seg.origs.length then
            if _istagdif seg none 0 then 0 else _difdepthGo seg none fuel 1
          else 0 := rfl
      rw [step, if_pos (by omega)]
      rfl
  | some cs =>
    show _difdepthGo seg (some cs) seg.origs.length 0 =
      commonPrefixLen origKeyEq seg.origs cs.origs
    rw [_difdepthGo_spec seg cs seg.origs.length 0 (by omega)]
    simp

/-- C7 counterexample: three deviations from the claim at concrete
inputs.  A `$$` replacement is expanded to `$` by JavaScript's
`GetSubstitution`, not inserted literally; a segment with no origins
makes the call throw instead of returning the text; and a segment with a
reversed range duplicates text instead of leaving it unchanged. -/
theorem replace_claim_counterexample :
    replace ("ab".toList) [{ range := ⟨0, 2⟩, origs := [⟨"X".toList, ⟨0, 2, 0⟩⟩] }] 0
        ("$$".toList) = some ("$".toList) ∧
    ("$".toList : Str) ≠ "$$".toList ∧
    replace ("ab".toList) [{ range := ⟨0, 2⟩, origs := [] }] 0 ("x".toList) = none ∧
    replace ("abcdefgh".toList) [{ range := ⟨5, 2⟩, origs := [⟨"X".toList, ⟨0, 1, 0⟩⟩] }] 0
        ("Z".toList) = some ("abcdecdecdefgh".toList) ∧
    ("abcdecdecdefgh".toList : Str) ≠ "abcdefgh".toList := by
  refine ⟨by decide, by decide, by decide, by decide, by decide⟩

/-- C7 (amended): for a segment with at least one origin and a
well-formed range, `replace` substitutes the segment's substring with the
`$`-expanded replacement exactly when the segment is exact (single origin
whose range equals the segment's range), leaving prefix and suffix
unchanged, and returns the text unchanged otherwise; a segment with no
origins makes the call throw (`none`). -/
theorem replace_exact_segment (text : Str) (map : List Seg) (i : Nat) (repl : Str)
    (s : Seg) (hs : map.get? i = some s) (hwf : s.range.start ≤ s.range.«end») :
    replace text map i repl =
      match s.origs with
      | [] => none
      | [o] =>
        if o.range.start = s.range.start ∧ o.range.«end» = s.range.«end» then
          some (text.take s.range.start ++
            jsReplaceSelf (jsSubstring text s.range.start s.range.«end») repl ++
            text.drop s.range.«end»)
        else some text
      | _ => some text := by
  have hlen : i < map.length := by
    rcases List.get?_eq_some.mp hs with ⟨h, _⟩
    exact h
  have hrestore : text.take s.range.start ++ jsSubstring text s.range.start s.range.«end» ++
      text.drop s.range.«end» = text := by
    unfold jsSubstring
    rw [Nat.min_eq_left hwf, Nat.max_eq_right hwf]
    rw [show text.take s.range.start = (text.take s.range.«end»).take s.range.start by
      rw [List.take_take, Nat.min_eq_left hwf]]
    rw [List.take_append_drop, List.take_append_drop]
  have hred : replace text map i repl =
      (match s.origs with
       | [] => none
       | o :: _ => some (replaceall text [s] [(o.setname, repl)])) := by
    unfold replace
    rw [if_neg (by omega), hs]
  have hra : ∀ w : List (Str × Str),
      replaceall text [s] w =
        (jsSlice text 0 s.range.start ++
          (match s.origs with
           | [o'] =>
             if o'.range.start = s.range.start ∧ o'.range.«end» = s.range.«end» then
               jsReplaceSelf (jsSubstring text s.range.start s.range.«end»)
                 ((List.lookup o'.setname w).getD ("undefined".toList))
             else jsSubstring text s.range.start s.range.«end»
           | _ => jsSubstring text s.range.start s.range.«end»)) ++ text.drop s.range.«end» := by
    intro w
    rfl
  rw [hred]
  match hor : s.origs with
  | [] => rfl
  | [o] =>
    show some (replaceall text [s] [(o.setname, repl)]) = _
    rw [hra, hor]
    simp only [List.lookup_cons_self, Option.getD_some, jsSlice, List.drop_zero]
    by_cases hex : o.range.start = s.range.start ∧ o.range.«end» = s.range.«end»
    · rw [if_pos hex, if_pos hex]
    · rw [if_neg hex, if_neg hex, hrestore]
  | o :: o2 :: rest2 =>
    show some (replaceall text [s] [(o.setname, repl)]) = some text
    rw [hra, hor]
    simp only [jsSlice, List.drop_zero]
    rw [hrestore]

/-- Witness for `replace_exact_segment` at a concrete exact segment. -/
theorem replace_exact_segment_witness :
    [({ range := ⟨1, 3⟩, origs := [⟨"X".toList, ⟨1, 3, 0⟩⟩] } : Seg)].get? 0 =
        some { range := ⟨1, 3⟩, origs := [⟨"X".toList, ⟨1, 3, 0⟩⟩] } ∧
      (1 : Nat) ≤ 3 ∧
      replace ("abcdef".toList) [{ range := ⟨1, 3⟩, origs := [⟨"X".toList, ⟨1, 3, 0⟩⟩] }] 0
          ("ZZ".toList) =
        match ({ range := ⟨1, 3⟩, origs := [⟨"X".toList, ⟨1, 3, 0⟩⟩] } : Seg).origs with
        | [] => none
        | [o] =>
          if o.range.start = 1 ∧ o.range.«end» = 3 then
            some (("abcdef".toList).take 1 ++
              jsReplaceSelf (jsSubstring ("abcdef".toList) 1 3) ("ZZ".toList) ++
              ("abcdef".toList).drop 3)
          else some ("abcdef".toList)
        | _ => some ("abcdef".toList) :=
  ⟨by decide, by decide,
    replace_exact_segment ("abcdef".toList)
      [{ range := ⟨1, 3⟩, origs := [⟨"X".toList, ⟨1, 3, 0⟩⟩] }] 0 ("ZZ".toList)
      { range := ⟨1, 3⟩, origs := [⟨"X".toList, ⟨1, 3, 0⟩⟩] } (by decide) (by decide)⟩

/-- C4 counterexample: two adjacent segments whose sole origins agree on
setname and sequence number but carry different original ranges.  The
claim predicts open depth 0 (full-Origin agreement fails) and a
close-and-reopen; the code computes depth 1 and renders one unbroken
tag. -/
theorem difdepth_counterexample_range_ignored :
    _difdepth { range := ⟨5, 10⟩, origs := [⟨"A".toList, ⟨5, 10, 0⟩⟩] }
        (some { range := ⟨0, 5⟩, origs := [⟨"A".toList, ⟨0, 5, 0⟩⟩] }) = 1 ∧
    commonPrefixLen origFullEq [⟨"A".toList, ⟨5, 10, 0⟩⟩] [⟨"A".toList, ⟨0, 5, 0⟩⟩] = 0 ∧
    addrange ⟨5, 10⟩ ("A".toList) (addrange ⟨0, 5⟩ ("A".toList) []) =
      [{ range := ⟨0, 5⟩, origs := [⟨"A".toList, ⟨0, 5, 0⟩⟩] },
       { range := ⟨5, 10⟩, origs := [⟨"A".toList, ⟨5, 10, 0⟩⟩] }] ∧
    markup ("abcdefghij".toList)
        (addrange ⟨5, 10⟩ ("A".toList) (addrange ⟨0, 5⟩ ("A".toList) [])) none none =
      ("<mark class=\"A L R\">abcdefghij</mark>".toList) := by
  refine ⟨by decide, by decide, by decide, by decide⟩


/-- C1: counterexample to the unconditional partition invariant.  The
insertion sequence `addrange A=[0,10)` then `addrange B=[3,3)` from the
empty map stores the zero-length fragment `[3,3)`, so the resulting
starts `0, 3, 3` are not strictly ascending. -/
theorem insertion_sequence_ascending_counterexample :
    ¬ Ascending (List.foldl applyIns []
      [Ins.rng ⟨0, 10⟩ ("A".toList), Ins.rng ⟨3, 3⟩ ("B".toList)]) := by
  unfold Ascending
  decide

/-- C1 (amended): for every sequence of Segment-mode insertions starting
from the empty map in which every `addrange` range has distinct endpoints
and every `addmatches` match list consists of non-empty matches in
left-to-right non-overlapping order, the resulting map's ranges are
strictly ascending and pairwise non-overlapping, and a position is
covered exactly when some insertion's (normalized) range covers it.  The
restriction to such inputs is necessary: a zero-length range or match is
stored as a zero-length segment rather than dropped, breaking strict
ascension. -/
theorem insertion_sequences_partition (ops : List Ins)
    (hwf : ∀ op ∈ ops, InsWF op) :
    Ascending (List.foldl applyIns [] ops) ∧
    NonOverlapping (List.foldl applyIns [] ops) ∧
    (∀ pos, covered (List.foldl applyIns [] ops) pos ↔
      ∃ op ∈ ops, insCovers pos op) := by
  have hord : List.Pairwise
      (fun a c => (fun _ => 0 : Str → Nat) (insName a) ≤
        (fun _ => 0 : Str → Nat) (insName c)) ops := by
    clear hwf
    induction ops with
    | nil => exact List.Pairwise.nil
    | cons a t ih => exact List.Pairwise.cons (fun _ _ => le_rfl) ih
  obtain ⟨hs, hn, hcov, _⟩ := foldl_ins_spec (fun _ => 0) ops [] 0
    List.Pairwise.nil (fun _ h => absurd h (List.not_mem_nil _))
    (fun _ h => absurd h (List.not_mem_nil _)) hwf (fun _ _ => le_rfl) hord
  obtain ⟨hasc, hno⟩ := sorted_nondeg_strict _ hs hn
  refine ⟨hasc, hno, ?_⟩
  intro pos
  rw [hcov pos]
  simp [covered]

/-- Witness for `insertion_sequences_partition` at a concrete two-step
sequence (one range, one two-match matcher). -/
theorem insertion_sequences_partition_witness :
    (∀ op ∈ [Ins.rng ⟨0, 10⟩ ("A".toList), Ins.mts [⟨2, 4⟩, ⟨6, 8⟩] ("B".toList)],
      InsWF op) ∧
    (Ascending (List.foldl applyIns []
        [Ins.rng ⟨0, 10⟩ ("A".toList), Ins.mts [⟨2, 4⟩, ⟨6, 8⟩] ("B".toList)]) ∧
     NonOverlapping (List.foldl applyIns []
        [Ins.rng ⟨0, 10⟩ ("A".toList), Ins.mts [⟨2, 4⟩, ⟨6, 8⟩] ("B".toList)]) ∧
     (∀ pos, covered (List.foldl applyIns []
        [Ins.rng ⟨0, 10⟩ ("A".toList), Ins.mts [⟨2, 4⟩, ⟨6, 8⟩] ("B".toList)]) pos ↔
       ∃ op ∈ [Ins.rng ⟨0, 10⟩ ("A".toList), Ins.mts [⟨2, 4⟩, ⟨6, 8⟩] ("B".toList)],
         insCovers pos op)) :=
  ⟨by decide, insertion_sequences_partition _ (by decide)⟩

/-- C3: counterexample to registration-order nesting.  The explicit
range `X=[0,10)` is registered before the matcher `Y` (sole match
`[3,6)`), yet default `buildmap` runs the matcher pass first, so in the
overlap segment Y's origin is listed first and the rendering wraps Y's
tag around X's — the earlier-registered entry is nested inside the
later one (and X's tag is even closed and reopened around it). -/
theorem earlier_range_rendered_inside_later_matcher :
    buildmap [("X".toList, PDef.rng ⟨0, 10⟩), ("Y".toList, PDef.regex [⟨3, 6⟩])] [] true =
      [{ range := ⟨0, 3⟩, origs := [⟨"X".toList, ⟨0, 10, 0⟩⟩] },
       { range := ⟨3, 6⟩,
         origs := [⟨"Y".toList, ⟨3, 6, 0⟩⟩, ⟨"X".toList, ⟨0, 10, 0⟩⟩] },
       { range := ⟨6, 10⟩, origs := [⟨"X".toList, ⟨0, 10, 0⟩⟩] }] ∧
    markup ("0123456789".toList)
        (buildmap [("X".toList, PDef.rng ⟨0, 10⟩),
                   ("Y".toList, PDef.regex [⟨3, 6⟩])] [] true)
        none none =
      (("<mark class=\"X L  \">012</mark><mark class=\"Y L R\">" ++
        "<mark class=\"X  \">345</mark></mark><mark class=\"X R\">6789</mark>").toList) := by
  constructor
  · decide
  · decide

/-- C3 (amended): default `buildmap` merges all matcher entries first
(in registration order) and all explicit-range entries after them (in
registration order), and nesting follows that processing order, not
registration order: for any rank function non-decreasing along the
processed sequence, every segment of the built map lists its origins in
non-decreasing rank order, outermost first. -/
theorem buildmap_nests_by_pass_order (defs : Registry) (rk : Str → Nat)
    (hwf : ∀ e ∈ defs, InsWF (entryIns e))
    (hmono : List.Pairwise (fun a c => rk a.1 ≤ rk c.1)
      (defs.filter isRegexEntry ++ defs.filter (fun e => ! isRegexEntry e))) :
    ∀ s ∈ buildmap defs [] true,
      List.Pairwise (fun a c => rk a.setname ≤ rk c.setname) s.origs := by
  have hname : ∀ e : Str × PDef, insName (entryIns e) = e.1 := by
    intro e
    obtain ⟨cls, pd⟩ := e
    cases pd <;> rfl
  have hwf2 : ∀ op ∈ (defs.filter isRegexEntry ++
      defs.filter (fun e => ! isRegexEntry e)).map entryIns, InsWF op := by
    intro op hop
    rw [List.mem_map] at hop
    obtain ⟨e, he, rfl⟩ := hop
    rcases List.mem_append.mp he with he | he
    · exact hwf e (List.mem_of_mem_filter he)
    · exact hwf e (List.mem_of_mem_filter he)
  have hord : List.Pairwise (fun a c => rk (insName a) ≤ rk (insName c))
      ((defs.filter isRegexEntry ++ defs.filter (fun e => ! isRegexEntry e)).map entryIns) := by
    rw [List.pairwise_map]
    refine hmono.imp ?_
    intro a c h
    rw [hname a, hname c]
    exact h
  obtain ⟨_, _, _, hrk⟩ := foldl_ins_spec rk
    ((defs.filter isRegexEntry ++ defs.filter (fun e => ! isRegexEntry e)).map entryIns)
    [] 0 List.Pairwise.nil (fun _ h => absurd h (List.not_mem_nil _))
    (fun _ h => absurd h (List.not_mem_nil _)) hwf2 (fun _ _ => Nat.zero_le _) hord
  intro s hs
  rw [buildmap_true_eq] at hs
  exact (hrk s hs).1

/-- Witness for `buildmap_nests_by_pass_order` at the concrete registry
of the counterexample, ranked by processing order (Y first). -/
theorem buildmap_nests_by_pass_order_witness :
    (∀ e ∈ [(("X".toList : Str), PDef.rng ⟨0, 10⟩), ("Y".toList, PDef.regex [⟨3, 6⟩])],
      InsWF (entryIns e)) ∧
    (∀ s ∈ buildmap [(("X".toList : Str), PDef.rng ⟨0, 10⟩),
                     ("Y".toList, PDef.regex [⟨3, 6⟩])] [] true,
      List.Pairwise (fun a c =>
        (fun n => if n = "Y".toList then 0 else 1 : Str → Nat) a.setname ≤
        (fun n => if n = "Y".toList then 0 else 1 : Str → Nat) c.setname) s.origs) :=
  ⟨by decide,
   buildmap_nests_by_pass_order _ (fun n => if n = "Y".toList then 0 else 1)
     (by decide) (by decide)⟩

/-- C9: over a map satisfying the invariant (sorted, non-degenerate,
hence strictly ascending and non-overlapping), `atpos` returns the index
of the unique segment whose half-open range contains `pos`, and `-1`
when no segment contains it — in a gap, before the first segment, at or
after the end of the last segment, or on the empty map. -/
theorem atpos_unique_containing_segment (map : List Seg) (pos : Nat)
    (hs : SegSorted map) (hn : NonDeg map) :
    (∀ k, k < map.length → startAt map k ≤ pos → pos < endAt map k →
      atpos pos map = (k : ℤ)) ∧
    ((∀ k, k < map.length → ¬ (startAt map k ≤ pos ∧ pos < endAt map k)) →
      atpos pos map = -1) := by
  have hstep : atpos pos map =
      if isposin pos map (next pos map) then next pos map else -1 := rfl
  constructor
  · intro k hk hsk hke
    have hnext : next pos map = (k : ℤ) := by
      apply next_spec map pos k hs hn (by omega) (le_of_lt hk) (fun _ => hke)
      intro j hj
      exact le_trans (sorted_end_le_start map hs j k hj hk) hsk
    rw [hstep, hnext]
    rw [if_pos ?_]
    show isposin pos map ((k : Nat) : ℤ) = true
    simp only [isposin, Int.toNat_natCast, Bool.and_eq_true, decide_eq_true_eq]
    refine ⟨⟨⟨by omega, by exact_mod_cast hk⟩, hsk⟩, by omega⟩
  · intro hnone
    by_cases hex : ∃ k, k < map.length ∧ pos < endAt map k
    · set T := Nat.find hex with hT
      have hspec := Nat.find_spec hex
      have hmin : ∀ k, k < T → endAt map k ≤ pos := by
        intro k hk
        have h1 := Nat.find_min hex hk
        push_neg at h1
        exact h1 (by omega)
      have hnext : next pos map = (T : ℤ) :=
        next_spec map pos T hs hn (by omega) (le_of_lt hspec.1)
          (fun _ => hspec.2) hmin
      have hns : ¬ startAt map T ≤ pos := fun hc => hnone T hspec.1 ⟨hc, hspec.2⟩
      have hip : isposin pos map ((T : Nat) : ℤ) = false := by
        simp [isposin, Int.toNat_natCast, hns]
      rw [hstep, hnext, hip]
      rfl
    · push_neg at hex
      by_cases hnil : map.length = 0
      · have hmap : map = [] := List.length_eq_zero.mp hnil
        rw [hmap]
        rfl
      · have hnext : next pos map = (map.length : ℤ) :=
          next_spec map pos map.length hs hn hnil le_rfl
            (fun hc => absurd hc (lt_irrefl _)) (fun k hk => hex k hk)
        have hip : isposin pos map ((map.length : Nat) : ℤ) = false := by
          simp [isposin]
        rw [hstep, hnext, hip]
        rfl

/-- Witness for `atpos_unique_containing_segment` on a two-segment map
with a gap, at a position inside the second segment. -/
theorem atpos_unique_containing_segment_witness :
    SegSorted [{ range := ⟨1, 3⟩, origs := [⟨"X".toList, ⟨1, 3, 0⟩⟩] },
               { range := ⟨5, 8⟩, origs := [⟨"X".toList, ⟨5, 8, 1⟩⟩] }] ∧
    NonDeg [{ range := ⟨1, 3⟩, origs := [⟨"X".toList, ⟨1, 3, 0⟩⟩] },
            { range := ⟨5, 8⟩, origs := [⟨"X".toList, ⟨5, 8, 1⟩⟩] }] ∧
    ((∀ k, k < ([{ range := ⟨1, 3⟩, origs := [⟨"X".toList, ⟨1, 3, 0⟩⟩] },
                 { range := ⟨5, 8⟩, origs := [⟨"X".toList, ⟨5, 8, 1⟩⟩] }] :
          List Seg).length →
        startAt [{ range := ⟨1, 3⟩, origs := [⟨"X".toList, ⟨1, 3, 0⟩⟩] },
                 { range := ⟨5, 8⟩, origs := [⟨"X".toList, ⟨5, 8, 1⟩⟩] }] k ≤ 6 →
        6 < endAt [{ range := ⟨1, 3⟩, origs := [⟨"X".toList, ⟨1, 3, 0⟩⟩] },
                   { range := ⟨5, 8⟩, origs := [⟨"X".toList, ⟨5, 8, 1⟩⟩] }] k →
        atpos 6 [{ range := ⟨1, 3⟩, origs := [⟨"X".toList, ⟨1, 3, 0⟩⟩] },
                 { range := ⟨5, 8⟩, origs := [⟨"X".toList, ⟨5, 8, 1⟩⟩] }] = (k : ℤ)) ∧
     ((∀ k, k < ([{ range := ⟨1, 3⟩, origs := [⟨"X".toList, ⟨1, 3, 0⟩⟩] },
                  { range := ⟨5, 8⟩, origs := [⟨"X".toList, ⟨5, 8, 1⟩⟩] }] :
           List Seg).length →
         ¬ (startAt [{ range := ⟨1, 3⟩, origs := [⟨"X".toList, ⟨1, 3, 0⟩⟩] },
                     { range := ⟨5, 8⟩, origs := [⟨"X".toList, ⟨5, 8, 1⟩⟩] }] k ≤ 6 ∧
            6 < endAt [{ range := ⟨1, 3⟩, origs := [⟨"X".toList, ⟨1, 3, 0⟩⟩] },
                       { range := ⟨5, 8⟩, origs := [⟨"X".toList, ⟨5, 8, 1⟩⟩] }] k)) →
       atpos 6 [{ range := ⟨1, 3⟩, origs := [⟨"X".toList, ⟨1, 3, 0⟩⟩] },
                { range := ⟨5, 8⟩, origs := [⟨"X".toList, ⟨5, 8, 1⟩⟩] }] = -1)) :=
  ⟨by unfold SegSorted; decide, by unfold NonDeg; decide,
   atpos_unique_containing_segment
     [{ range := ⟨1, 3⟩, origs := [⟨"X".toList, ⟨1, 3, 0⟩⟩] },
      { range := ⟨5, 8⟩, origs := [⟨"X".toList, ⟨5, 8, 1⟩⟩] }] 6
     (by unfold SegSorted; decide) (by unfold NonDeg; decide)⟩

/-- C8: counterexample at the empty text.  The sole match covering
`[0, len(""))` is the zero-length match `[0,0)`; the map stores nothing
and rendering emits no opening and no closing tag at all, not "exactly
one tag wrapping the escaped text". -/
theorem whole_document_empty_text_no_tags :
    addmatches [⟨0, 0⟩] ("X".toList) [] = [] ∧
    markup [] (addmatches [⟨0, 0⟩] ("X".toList) []) none
      (some [("X".toList, ({} : DefEntry))]) = [] := by
  constructor
  · decide
  · decide

/-- C8 (amended): for every NON-EMPTY text, registering a single matcher
whose sole match covers `[0, len(text))` yields the one-segment map, and
rendering it with no other patterns produces exactly one opening tag
(class `cls L R`) and one closing tag wrapping the fully-escaped text,
where the escaping is exactly the per-character entity map — `&` escaped
first, then `>`, then `<`, so the entities just produced are never
double-escaped.  The empty text must be excluded: its sole whole-document
match is zero-length, nothing is stored, and no tag is emitted. -/
theorem whole_document_roundtrip (text cls : Str) (ht : text ≠ []) :
    addmatches [⟨0, text.length⟩] cls [] =
      [{ range := ⟨0, text.length⟩, origs := [⟨cls, ⟨0, text.length, 0⟩⟩] }] ∧
    markup text (addmatches [⟨0, text.length⟩] cls []) none
        (some [(cls, ({} : DefEntry))]) =
      ("<mark class=\"".toList ++ cls ++ (" L R\">".toList) ++
        raw2HTML text ++ ("</mark>".toList)) ∧
    raw2HTML text = text.flatMap (fun c =>
      if c = '&' then ("&amp;".toList)
      else if c = '>' then ("&gt;".toList)
      else if c = '<' then ("&lt;".toList)
      else [c]) := by
  have hmap := addmatches_single_full text.length cls (List.length_pos.mpr ht)
  refine ⟨hmap, ?_, raw2HTML_flatMap text⟩
  rw [hmap]
  exact markup_single_full text cls ht

/-- Witness for `whole_document_roundtrip` at a text containing a
character that needs escaping. -/
theorem whole_document_roundtrip_witness :
    (("a<b".toList : Str) ≠ []) ∧
    (addmatches [⟨0, ("a<b".toList : Str).length⟩] ("X".toList) [] =
      [{ range := ⟨0, ("a<b".toList : Str).length⟩,
         origs := [⟨"X".toList, ⟨0, ("a<b".toList : Str).length, 0⟩⟩] }] ∧
     markup ("a<b".toList) (addmatches [⟨0, ("a<b".toList : Str).length⟩] ("X".toList) [])
         none (some [("X".toList, ({} : DefEntry))]) =
       ("<mark class=\"".toList ++ "X".toList ++ (" L R\">".toList) ++
         raw2HTML ("a<b".toList) ++ ("</mark>".toList)) ∧
     raw2HTML ("a<b".toList) = ("a<b".toList).flatMap (fun c =>
       if c = '&' then ("&amp;".toList)
       else if c = '>' then ("&gt;".toList)
       else if c = '<' then ("&lt;".toList)
       else [c])) :=
  ⟨by decide, whole_document_roundtrip ("a<b".toList) ("X".toList) (by decide)⟩

end SOT
